import Mathlib

/-!
Verification development for the streaming variant-candidate extractor
(`dataPrepScripts/ExtractVariantCandidates.py`).  The Python source is shallowly
embedded: per-read CIGAR decoding, the pileup accumulator, the read admission
filter, the position filter pipeline, the streaming driver and the proximity
index builder are translated into executable Lean definitions.  Python machine
floats are modelled by exact rationals, Python dicts by insertion-ordered
association lists, and the two external collaborator processes (samtools view /
faidx) by explicit input parameters.
-/

namespace ExtractVariantCandidates

open List

/-- Lookup normalizing IUPAC ambiguity codes to one of A/C/G/T.
Modelled from the spec: the table `IUPAC_base_to_ACGT_base_dict` lives in the
external `shared.utils` module, which is not part of this repository snapshot;
the spec states that ambiguity codes are normalized to one of A/C/G/T via a
fixed lookup while `N` passes through unchanged.  Only the A/C/G/T/N entries
are exercised by the claims. -/
def BASE2ACGT (base : Char) : Char :=
  match base with
  | 'A' => 'A'
  | 'C' => 'C'
  | 'G' => 'G'
  | 'T' => 'T'
  | 'U' => 'T'
  | 'R' => 'A'
  | 'Y' => 'C'
  | 'S' => 'C'
  | 'W' => 'A'
  | 'K' => 'G'
  | 'M' => 'A'
  | 'B' => 'C'
  | 'D' => 'A'
  | 'H' => 'A'
  | 'V' => 'A'
  | 'N' => 'N'
  | _ => 'A'

/-- `evc_base_from` of the source: `base if base == "N" else BASE2ACGT[base]`. -/
def evc_base_from (base : Char) : Char :=
  if base = 'N' then base else BASE2ACGT base

/-- One pileup tally: the per-position dict
`{"A": 0, "C": 0, "G": 0, "T": 0, "I": 0, "D": 0, "N": 0}` of the source,
with the seven counters in their Python insertion order. -/
structure Tally where
  A : Nat
  C : Nat
  G : Nat
  T : Nat
  I : Nat
  D : Nat
  N : Nat
deriving DecidableEq, Repr

/-- The all-zero tally produced by the defaultdict factory. -/
def emptyTally : Tally := ⟨0, 0, 0, 0, 0, 0, 0⟩

/-- Increment the counter selected by a symbol, mirroring
`pileup[reference_position][base] += 1`.  The source only ever passes one of
the seven dict keys (a `KeyError` would otherwise abort the Python process);
other characters are unreachable and leave the tally unchanged. -/
def Tally.incr (t : Tally) (sym : Char) : Tally :=
  match sym with
  | 'A' => { t with A := t.A + 1 }
  | 'C' => { t with C := t.C + 1 }
  | 'G' => { t with G := t.G + 1 }
  | 'T' => { t with T := t.T + 1 }
  | 'I' => { t with I := t.I + 1 }
  | 'D' => { t with D := t.D + 1 }
  | 'N' => { t with N := t.N + 1 }
  | _ => t

/-- `list(position_dict.items())` in Python 3 insertion order. -/
def Tally.items (t : Tally) : List (Char × Nat) :=
  [('A', t.A), ('C', t.C), ('G', t.G), ('T', t.T), ('I', t.I), ('D', t.D), ('N', t.N)]

/-- The depth computed at lines 355-356 of the source:
`sum(x[1] for x in base_count) - position_dict["I"] - position_dict["D"]`. -/
def depthOf (t : Tally) : Nat :=
  (t.items.map Prod.snd).sum - t.I - t.D

/-- The pileup defaultdict: an insertion-ordered association list from 0-based
reference coordinate to tally, mirroring Python 3 dict key order. -/
abbrev Pileup : Type := List (Int × Tally)

/-- `pileup[position][sym] += 1`: update the tally in place if the key exists,
otherwise create it at the end (defaultdict insertion order). -/
def pileupTouch (p : Pileup) (pos : Int) (sym : Char) : Pileup :=
  match p with
  | [] => [(pos, Tally.incr emptyTally sym)]
  | (k, t) :: rest =>
    if k = pos then (k, Tally.incr t sym) :: rest
    else (k, t) :: pileupTouch rest pos sym

/-- Read access `pileup[position]` for a key known to be present. -/
def pileupGet (p : Pileup) (pos : Int) : Tally :=
  (((p : List (Int × Tally)).find? (fun kv => kv.1 == pos)).map Prod.snd).getD emptyTally

/-- The key list `pileup.keys()` in insertion order. -/
def pileupKeys (p : Pileup) : List Int :=
  (p : List (Int × Tally)).map Prod.fst

/-! ## CIGAR scanning -/

/-- Numeric value of a decimal digit character, as in Python `int(c)`. -/
def digitVal (c : Char) : Nat := c.toNat - 48

/-- The character scan of `is_too_many_soft_clipped_bases_for_a_read_from`:
accumulate `soft_clipped_bases` and `total_alignment_positions` with the
mutable `advance` decimal accumulator. -/
def softClipScan : List Char → Nat → Nat → Nat → Nat × Nat
  | [], soft, total, _ => (soft, total)
  | c :: cs, soft, total, advance =>
    if c.isDigit then softClipScan cs soft total (advance * 10 + digitVal c)
    else if c = 'S' then softClipScan cs (soft + advance) (total + advance) 0
    else softClipScan cs soft (total + advance) 0

/-- Source lines 155-170: a read is rejected when less than 55% of its total
CIGAR-spanned length (plus one, to avoid division by zero) is aligned. -/
def is_too_many_soft_clipped_bases_for_a_read_from (CIGAR : List Char) : Bool :=
  let p := softClipScan CIGAR 0 0 0
  decide ((1 : ℚ) - (p.1 : ℚ) / ((p.2 : ℚ) + 1) < 55 / 100)

/-- Specification-side CIGAR tokenizer: the list of (length, opcode) pairs. -/
def cigarOps : List Char → Nat → List (Nat × Char)
  | [], _ => []
  | c :: cs, advance =>
    if c.isDigit then cigarOps cs (advance * 10 + digitVal c)
    else (advance, c) :: cigarOps cs 0

/-- Specification-side total CIGAR-spanned length: sum of all operation lengths. -/
def totalSpanOf (CIGAR : List Char) : Nat :=
  ((cigarOps CIGAR 0).map Prod.fst).sum

/-- Specification-side count of soft-clipped bases: sum of `S` operation lengths. -/
def softClippedOf (CIGAR : List Char) : Nat :=
  (((cigarOps CIGAR 0).filter (fun oc => oc.2 = 'S')).map Prod.fst).sum

/-! ## The per-read CIGAR decoding loop (source lines 286-317) -/

/-- The mutable state of the per-read decoding loop. -/
structure ReadState where
  reference_position : Int
  query_position : Nat
  advance : Nat
  pileup : Pileup
deriving DecidableEq

/-- The inner `for _ in range(advance)` loop of an M/=/X operation: one
matched-base increment per aligned position, consuming query and reference. -/
def matchLoop (SEQ : List Char) : Nat → Int → Nat → Pileup → Pileup
  | 0, _, _, p => p
  | n + 1, refPos, qryPos, p =>
    matchLoop SEQ n (refPos + 1) (qryPos + 1)
      (pileupTouch p refPos (evc_base_from (SEQ.getD qryPos 'N')))

/-- One character of the CIGAR decoding loop. -/
def applyCigarChar (SEQ : List Char) (s : ReadState) (c : Char) : ReadState :=
  if c.isDigit then { s with advance := s.advance * 10 + digitVal c }
  else if c = 'S' then
    { s with query_position := s.query_position + s.advance, advance := 0 }
  else if c = 'M' ∨ c = '=' ∨ c = 'X' then
    { reference_position := s.reference_position + s.advance,
      query_position := s.query_position + s.advance,
      advance := 0,
      pileup := matchLoop SEQ s.advance s.reference_position s.query_position s.pileup }
  else if c = 'I' then
    { s with pileup := pileupTouch s.pileup (s.reference_position - 1) 'I',
             query_position := s.query_position + s.advance,
             advance := 0 }
  else if c = 'D' then
    { s with pileup := pileupTouch s.pileup (s.reference_position - 1) 'D',
             reference_position := s.reference_position + s.advance,
             advance := 0 }
  else { s with advance := 0 }

/-- Decode a whole CIGAR string against a pileup, starting from the read's
0-based start coordinate with `query_position = 0` and `advance = 0`. -/
def applyCigar (SEQ CIGAR : List Char) (startPos : Int) (p : Pileup) : ReadState :=
  CIGAR.foldl (applyCigarChar SEQ) ⟨startPos, 0, 0, p⟩

/-! ## Descending stable sort of the base counts (source line 362) -/

/-- The order used by `base_count.sort(key=lambda x: -x[1])`: descending by
count.  Python list sort is stable; `List.insertionSort` with this relation is
the same stable descending sort. -/
def countGe (x y : Char × Nat) : Prop := y.2 ≤ x.2

instance : DecidableRel countGe :=
  fun x y => inferInstanceAs (Decidable (y.2 ≤ x.2))

instance : IsTotal (Char × Nat) countGe :=
  ⟨fun a b => (Nat.le_total b.2 a.2).elim Or.inl Or.inr⟩

instance : IsTrans (Char × Nat) countGe :=
  ⟨fun _ _ _ hab hbc => Nat.le_trans hbc hab⟩

/-- Stable descending sort of (symbol, count) pairs. -/
def sortBaseCount (bc : List (Char × Nat)) : List (Char × Nat) :=
  List.insertionSort countGe bc

/-- The `denominator = depth if depth > 0 else 1` of source line 361. -/
def denominatorOf (depth : Nat) : Nat :=
  if depth > 0 then depth else 1

/-- The allele-frequency test of source lines 360-366: accept when the
top-ranked symbol differs from the reference base, or the second-ranked count
over the denominator reaches the configured minimum allele frequency. -/
def passAf (t : Tally) (reference_base : Char) (minimum_af : ℚ) : Bool :=
  let base_count := sortBaseCount t.items
  ((base_count.headD ('?', 0)).1 != reference_base) ||
    decide ((((base_count.get? 1).getD ('?', 0)).2 : ℚ) /
      ((denominatorOf (depthOf t) : Nat) : ℚ) ≥ minimum_af)

/-! ## Proximity index builder (source lines 59-101)

Variant-map keys `"ctg:pos"` are modelled as (contig, 1-based position) pairs;
the source's string concatenation and `split(':')` are inverse bijections on
well-formed keys, so pair keys are an equivalent representation. -/

/-- A Python dict-of-True used as a set: assignment inserts the key at the end
when it is absent and leaves the dict unchanged when it is present. -/
def dictInsert (m : List (String × Int)) (k : String × Int) : List (String × Int) :=
  if k ∈ m then m else m ++ [k]

/-- One iteration of the inner `for i in range(upper*2+1)` loop of
`non_variants_map_near_variants_from`, updating the pair
(non_variants_map, non_variants_map_to_exclude). -/
def nonVariantsStep
    (lower upper : Nat) (variants_map : List (String × Int))
    (ctg_name : String) (position : Int)
    (acc : List (String × Int) × List (String × Int)) (i : Nat) :
    List (String × Int) × List (String × Int) :=
  let position_offset : Int := -(upper : Int) + i
  let temp_position : Int := position + position_offset
  if temp_position ≤ 0 then acc
  else
    let temp_key : String × Int := (ctg_name, temp_position)
    let can_add_to_non_variants_map :=
      temp_key ∉ variants_map ∧ temp_key ∉ acc.1 ∧
        (-(upper : Int) ≤ position_offset ∧ position_offset ≤ -(lower : Int) ∨
         (lower : Int) ≤ position_offset ∧ position_offset ≤ (upper : Int))
    let can_add_to_non_variants_map_to_exclude :=
      -(lower : Int) < position_offset ∧ position_offset < (lower : Int)
    (if can_add_to_non_variants_map then dictInsert acc.1 temp_key else acc.1,
     if can_add_to_non_variants_map_to_exclude then dictInsert acc.2 temp_key else acc.2)

/-- `non_variants_map_near_variants_from` of the source: for each variant,
record near-band offsets, then subtract the inner exclusion band. -/
def non_variants_map_near_variants_from
    (variants_map : List (String × Int))
    (lower_limit_to_non_variants upper_limit_to_non_variants : Nat) :
    List (String × Int) :=
  let acc :=
    variants_map.foldl
      (fun acc kv =>
        (List.range (upper_limit_to_non_variants * 2 + 1)).foldl
          (nonVariantsStep lower_limit_to_non_variants upper_limit_to_non_variants
            variants_map kv.1 kv.2) acc)
      ([], [])
  acc.1.filter (fun k => k ∉ acc.2)

/-! ## Streaming driver (source `make_candidates`, lines 173-403) -/

/-- Global constant of source line 18. -/
def RATIO_OF_NON_VARIANT_TO_VARIANT : ℚ := 2

/-- Source line 210. -/
def ratio_of_candidates_near_variant_to_candidates_outside_variant : ℚ := 1

/-- Source lines 211-213. -/
def output_probability_near_variant : ℚ :=
  3500000 * ratio_of_candidates_near_variant_to_candidates_outside_variant *
    RATIO_OF_NON_VARIANT_TO_VARIANT / 14000000

/-- Source line 214. -/
def output_probability_outside_variant : ℚ :=
  3500000 * RATIO_OF_NON_VARIANT_TO_VARIANT / (3000000000 - 14000000)

/-- One parsed alignment record from the `samtools view` stream (the columns
the loop body reads).  `QNAME` is kept as a character list because the header
test inspects its first character. -/
structure AlignmentRecord where
  QNAME : List Char
  RNAME : String
  POS1 : Int
  MAPQ : Int
  CIGAR : List Char
  SEQ : List Char
deriving DecidableEq

/-- The run configuration of `make_candidates` after argument digestion,
together with the collaborator results it consumes: the reference sequence
string fetched by `samtools faidx`, the BED membership oracle, the parsed
known-variant keys, and the `random.uniform(0, 1)` draw stream. -/
structure Config where
  ctgName : String
  ctgRange : Option (Int × Int)
  minMQ : Int
  minCoverage : ℚ
  threshold : ℚ
  gen4Training : Bool
  varFileGiven : Bool
  varEntries : List (String × Int)
  bedGiven : Bool
  bedMember : String → Int → Bool
  refSeq : List Char
  refStart : Option Int
  outputProb : ℚ
  rng : Nat → ℚ

/-- Source lines 197-199: in training mode the allele-frequency threshold is
forced to 0. -/
def effectiveMinAf (cfg : Config) : ℚ :=
  if cfg.gen4Training then 0 else cfg.threshold

/-- Source lines 202-203: the variants map is only loaded when training mode
and a variant file are both active. -/
def variantsMap (cfg : Config) : List (String × Int) :=
  if cfg.gen4Training && cfg.varFileGiven then cfg.varEntries else []

/-- Source line 348: the offset subtracted from a position to index into the
fetched reference sequence. -/
def refOffset (cfg : Config) : Int :=
  match cfg.refStart with
  | none => 0
  | some reference_start => reference_start - 1

/-- Python string indexing: negative indices address from the end, indices out
of `[-len, len)` raise `IndexError` (caught by the bare `except`). -/
def pyStringIndex (s : List Char) (i : Int) : Option Char :=
  if 0 ≤ i ∧ i < (s.length : Int) then s.get? i.toNat
  else if -(s.length : Int) ≤ i ∧ i < 0 then s.get? ((s.length : Int) + i).toNat
  else none

/-- The `"%s %d" % x` rendering of one (symbol, count) pair. -/
def formatBaseCount (x : Char × Nat) : String :=
  toString x.1 ++ " " ++ toString x.2

/-- The candidate output line of source lines 376-378: contig, 1-based
position, reference base and depth, followed by one pair per tally bucket in
descending count order, space-separated and newline-terminated. -/
def formatCandidate (ctg_name : String) (position1 : Int) (reference_base : Char)
    (depth : Nat) (base_count : List (Char × Nat)) : String :=
  String.intercalate " "
    ([ctg_name, toString position1, toString reference_base, toString depth] ++
      base_count.map formatBaseCount) ++ "\n"

/-- The mutable driver state of the `while True` loop. -/
structure DriverState where
  pileup : Pileup
  POS : Int
  number_of_reads_processed : Nat
  rngIdx : Nat
  no_of_candidates_near_variant : Nat
  no_of_candidates_outside_variant : Nat
  cands : List (Int × String)

/-- Driver state at loop entry (source lines 254-256). -/
def initState : DriverState :=
  { pileup := [], POS := 0, number_of_reads_processed := 0, rngIdx := 0,
    no_of_candidates_near_variant := 0, no_of_candidates_outside_variant := 0,
    cands := [] }

/-- The depth / allele-frequency / output tail of the per-position loop
(source lines 345-380), entered once the region and sampling stages passed.
`keyStatus` is `none` when `temp_key` was never assigned, otherwise it records
whether the key is in the near-variant map (used by the diagnostic counters). -/
def emitStage (cfg : Config) (st : DriverState) (pos : Int)
    (keyStatus : Option Bool) : DriverState :=
  match pyStringIndex cfg.refSeq (pos - refOffset cfg) with
  | none => st
  | some ch =>
    let reference_base := evc_base_from ch
    let position_dict := pileupGet st.pileup pos
    let depth := depthOf position_dict
    if (depth : ℚ) < cfg.minCoverage then st
    else if !passAf position_dict reference_base (effectiveMinAf cfg) then st
    else
      let st₁ :=
        match keyStatus with
        | some true =>
          { st with no_of_candidates_near_variant :=
              st.no_of_candidates_near_variant + 1 }
        | some false =>
          { st with no_of_candidates_outside_variant :=
              st.no_of_candidates_outside_variant + 1 }
        | none => st
      { st₁ with cands := st₁.cands ++
          [(pos, formatCandidate cfg.ctgName (pos + 1) reference_base depth
            (sortBaseCount position_dict.items))] }

/-- The `pass_ctg` region test of source line 325. -/
def pass_ctg_of (cfg : Config) (pos : Int) : Bool :=
  match cfg.ctgRange with
  | none => true
  | some r => decide (r.1 ≤ pos + 1 ∧ pos + 1 ≤ r.2)

/-- The `pass_bed` region test of source line 326. -/
def pass_bed_of (cfg : Config) (pos : Int) : Bool :=
  !cfg.bedGiven || cfg.bedMember cfg.ctgName pos

/-- One closed position through the filter pipeline (source lines 321-380):
region tests, the sampling stage with its `random.uniform` draws, then
`emitStage`. -/
def processPosition (cfg : Config) (nonVariants : List (String × Int))
    (st : DriverState) (pos : Int) : DriverState :=
  if !(pass_bed_of cfg pos && pass_ctg_of cfg pos) then st
  else if cfg.gen4Training && cfg.varFileGiven then
    let temp_key : String × Int := (cfg.ctgName, pos + 1)
    if temp_key ∈ variantsMap cfg then st
    else if temp_key ∈ nonVariants then
      let draw := cfg.rng st.rngIdx
      let st' := { st with rngIdx := st.rngIdx + 1 }
      if draw ≤ output_probability_near_variant then
        emitStage cfg st' pos (some true)
      else st'
    else
      let draw := cfg.rng st.rngIdx
      let st' := { st with rngIdx := st.rngIdx + 1 }
      if draw ≤ output_probability_outside_variant then
        emitStage cfg st' pos (some false)
      else st'
  else if cfg.gen4Training then
    let draw := cfg.rng st.rngIdx
    let st' := { st with rngIdx := st.rngIdx + 1 }
    if draw ≤ cfg.outputProb then emitStage cfg st' pos none else st'
  else emitStage cfg st pos none

/-- Ascending `positions.sort()` on coordinates. -/
def sortInts (l : List Int) : List Int :=
  List.insertionSort (fun a b : Int => a ≤ b) l

/-- Drain a batch of closed positions: run each through the filter pipeline in
ascending order, then delete the drained keys (source lines 319-383). -/
def drainPositions (cfg : Config) (nonVariants : List (String × Int))
    (st : DriverState) (positions : List Int) : DriverState :=
  let st' := positions.foldl (processPosition cfg nonVariants) st
  { st' with pileup :=
      (st'.pileup : List (Int × Tally)).filter (fun kv => !(positions.contains kv.1)) }

/-- One iteration of the record loop (source lines 258-383) for a non-empty
row: skip header lines and records for other contigs without touching the
state; reject low-quality, `*`-CIGAR and over-soft-clipped records after the
`POS` assignment; otherwise decode the read into the pileup and drain every
position strictly below the new horizon. -/
def processRecord (cfg : Config) (nonVariants : List (String × Int))
    (st : DriverState) (r : AlignmentRecord) : DriverState :=
  if r.QNAME.head? = some '@' then st
  else if r.RNAME ≠ cfg.ctgName then st
  else
    let POS := r.POS1 - 1
    if r.MAPQ < cfg.minMQ then { st with POS := POS }
    else if r.CIGAR = ['*'] || is_too_many_soft_clipped_bases_for_a_read_from r.CIGAR then
      { st with POS := POS }
    else
      let decoded := applyCigar r.SEQ r.CIGAR POS st.pileup
      let st₁ :=
        { st with pileup := decoded.pileup, POS := POS,
                  number_of_reads_processed := st.number_of_reads_processed + 1 }
      let positions :=
        sortInts ((pileupKeys st₁.pileup).filter (fun x => decide (x < POS)))
      drainPositions cfg nonVariants st₁ positions

/-- End of stream (`is_finish_reading_output`): drain every remaining held
position in ascending order. -/
def finalDrain (cfg : Config) (nonVariants : List (String × Int))
    (st : DriverState) : DriverState :=
  drainPositions cfg nonVariants st (sortInts (pileupKeys st.pileup))

/-- The whole record loop from a given state. -/
def runFromState (cfg : Config) (records : List AlignmentRecord)
    (st : DriverState) : DriverState :=
  let nonVariants := non_variants_map_near_variants_from (variantsMap cfg) 15 16
  finalDrain cfg nonVariants (records.foldl (processRecord cfg nonVariants) st)

/-- One full `make_candidates` run over a finite alignment stream. -/
def runMakeCandidates (cfg : Config) (records : List AlignmentRecord) : DriverState :=
  runFromState cfg records initState

/-- Positions of the emitted candidates, in emission order. -/
def emittedPositions (cfg : Config) (records : List AlignmentRecord) : List Int :=
  (runMakeCandidates cfg records).cands.map Prod.fst

/-- Process exit status of `make_candidates` (source lines 216-242 and
400-403) as a function of the collaborator outcomes: the fasta index check,
the fetched reference sequence (`none` models a failed retrieval), the BED
contig check, and the number of processed reads. -/
def exitCodeOf (faiExists : Bool) (referenceSequence : Option (List Char))
    (bedGiven bedHasCtg : Bool) (numReadsProcessed : Nat) : Nat :=
  if !faiExists then 1
  else
    match referenceSequence with
    | none => 1
    | some s =>
      if s.length = 0 then 1
      else if bedGiven && !bedHasCtg then 1
      else
        -- the loop runs to completion; zero processed reads takes the
        -- diagnostic `sys.exit(0)` branch, otherwise the function returns
        let _ := numReadsProcessed
        0

/-! ## Auxiliary definitions used by the statements -/

/-- The set of pileup keys a lone read creates, decoded against an empty
pileup (decoding never reads the pileup, so these are exactly the keys the
read adds to any pileup). -/
def touchedFrom (r : AlignmentRecord) : List Int :=
  pileupKeys (applyCigar r.SEQ r.CIGAR (r.POS1 - 1) []).pileup

/-- Whether a record passes the admission filter and is decoded into the
pileup: not a header line, on the processed contig, with sufficient mapping
quality, a usable CIGAR and an acceptable soft-clip fraction — the exact
conditions of the accepting branch of the record loop. -/
def isAdmitted (cfg : Config) (r : AlignmentRecord) : Bool :=
  !decide (r.QNAME.head? = some '@') &&
  !decide (r.RNAME ≠ cfg.ctgName) &&
  !decide (r.MAPQ < cfg.minMQ) &&
  !(r.CIGAR = ['*'] || is_too_many_soft_clipped_bases_for_a_read_from r.CIGAR)

/-- The positions a single CIGAR operation character touches, as a function of
the current reference position and `advance` accumulator. -/
def charTouched (refPos : Int) (advance : Nat) (c : Char) : List Int :=
  if c.isDigit then []
  else if c = 'S' then []
  else if c = 'M' ∨ c = '=' ∨ c = 'X' then
    (List.range advance).map (fun j : Nat => refPos + (j : Int))
  else if c = 'I' then [refPos - 1]
  else if c = 'D' then [refPos - 1]
  else []

/-- Shape of an emitted candidate record: the line is the formatted rendering
of some reference base and some tally, with the seven-bucket breakdown sorted
descendingly by count. -/
def GoodCand (cfg : Config) (pr : Int × String) : Prop :=
  ∃ (reference_base : Char) (t : Tally),
    pr.2 = formatCandidate cfg.ctgName (pr.1 + 1) reference_base (depthOf t)
      (sortBaseCount t.items) ∧
    (sortBaseCount t.items).length = 7 ∧
    (sortBaseCount t.items).Sorted countGe

/-- Driver states that agree on every component except the `POS` horizon
variable. -/
def eqExceptPOS (s s' : DriverState) : Prop :=
  s.pileup = s'.pileup ∧
  s.number_of_reads_processed = s'.number_of_reads_processed ∧
  s.rngIdx = s'.rngIdx ∧
  s.no_of_candidates_near_variant = s'.no_of_candidates_near_variant ∧
  s.no_of_candidates_outside_variant = s'.no_of_candidates_outside_variant ∧
  s.cands = s'.cands

/-- The driver invariant behind the ascending-emission guarantee: emitted
positions are strictly increasing, lie strictly below every live pileup key
and below the current horizon, and the pileup keys are distinct. -/
def InvC1 (st : DriverState) : Prop :=
  (st.cands.map Prod.fst).Pairwise (· < ·) ∧
  (∀ e ∈ st.cands.map Prod.fst, ∀ k ∈ pileupKeys st.pileup, e < k) ∧
  (∀ e ∈ st.cands.map Prod.fst, e < st.POS) ∧
  (pileupKeys st.pileup).Nodup

/-! ### Offset-level mirror of the proximity index builder -/

/-- Insert an integer offset into a set-list if absent. -/
def insertAbsentInt (m : List Int) (k : Int) : List Int :=
  if k ∈ m then m else m ++ [k]

/-- The key written for offset `o` of a variant at (contig `c`, position `p`). -/
def nearKey (c : String) (p : Int) (o : Int) : String × Int := (c, p + o)

/-- Offset-level mirror of `nonVariantsStep` for a single-variant map: the
built keys are exactly `nearKey c p` applied to these offsets. -/
def offStep (lower upper : Nat) (acc : List Int × List Int) (i : Nat) : List Int × List Int :=
  let off : Int := -(upper : Int) + i
  let can_add := off ≠ 0 ∧ off ∉ acc.1 ∧
      (-(upper : Int) ≤ off ∧ off ≤ -(lower : Int) ∨
       (lower : Int) ≤ off ∧ off ≤ (upper : Int))
  let can_ex := -(lower : Int) < off ∧ off < (lower : Int)
  (if can_add then insertAbsentInt acc.1 off else acc.1,
   if can_ex then insertAbsentInt acc.2 off else acc.2)

/-! ### Concrete runs used by counterexamples and witnesses -/

/-- A query sequence of `n` adenines. -/
def seqA (n : Nat) : List Char := List.replicate n 'A'

/-- A plain non-training configuration on contig "c": no region restriction,
no BED, no variant file, minimum mapping quality 0, minimum coverage 0,
allele-frequency threshold 0, reference a run of 120 cytosines. -/
def cfgPlain : Config :=
  { ctgName := "c", ctgRange := none, minMQ := 0, minCoverage := 0, threshold := 0,
    gen4Training := false, varFileGiven := false, varEntries := [], bedGiven := false,
    bedMember := fun _ _ => false, refSeq := List.replicate 120 'C', refStart := none,
    outputProb := 0, rng := fun _ => 0 }

/-- Same configuration with minimum mapping quality 10. -/
def cfgMQ : Config := { cfgPlain with minMQ := 10 }

/-- Read 1: `5M` starting at 1-based position 101. -/
def readM5 : AlignmentRecord := ⟨['r'], "c", 101, 60, ['5', 'M'], seqA 5⟩

/-- Read 2: `1M` starting at 1-based position 106. -/
def readM1 : AlignmentRecord := ⟨['r'], "c", 106, 60, ['1', 'M'], seqA 1⟩

/-- Read 3: `1I1M` starting at 1-based position 106; its leading insertion is
attributed to 0-based position 104, one base before its start. -/
def readLeadingIns : AlignmentRecord := ⟨['r'], "c", 106, 60, ['1', 'I', '1', 'M'], seqA 2⟩

/-- A read whose query sequence is a single `N`. -/
def readN : AlignmentRecord := ⟨['r'], "c", 101, 60, ['1', 'M'], ['N']⟩

/-- A read with CIGAR `80S20M`: 80 of 100 spanned bases soft-clipped. -/
def readSoftClipped : AlignmentRecord :=
  ⟨['r'], "c", 101, 60, ['8', '0', 'S', '2', '0', 'M'], seqA 100⟩

/-- A read with mapping quality 5, rejected under `cfgMQ`. -/
def readLowMQ : AlignmentRecord := ⟨['r'], "c", 51, 5, ['1', 'M'], seqA 1⟩

/-- A read with CIGAR `50S1I49M` at 1-based position 106: rejected by the
soft-clip test (aligned fraction 1 − 50/101 < 0.55), yet its decode — were it
admitted — would touch position 104, one base before its start. -/
def readRejIns : AlignmentRecord :=
  ⟨['r'], "c", 106, 60, ['5', '0', 'S', '1', 'I', '4', '9', 'M'], seqA 100⟩

/-! ## Claim C2: the depth formula -/

/-- Claim C2 as stated is false: the tally dict has a seventh `N` bucket, so a
read whose query sequence contains `N` yields a reachable tally whose depth
(sum of all counters minus insertions minus deletions) is 1 while A+C+G+T = 0.
The tally shown is the one held at 0-based position 100 when that position is
filtered. -/
theorem claim_C2_counterexample :
    (processRecord cfgPlain [] initState readN).pileup =
      [(100, ⟨0, 0, 0, 0, 0, 0, 1⟩)] ∧
    depthOf ⟨0, 0, 0, 0, 0, 0, 1⟩ = 1 ∧
    (0 : Nat) + 0 + 0 + 0 ≠ 1 := by
  refine ⟨by with_unfolding_all decide, by with_unfolding_all decide,
    by with_unfolding_all decide⟩

/-- Claim C2 (amended): for every tally, the depth computed as the sum of all
counters minus the insertion counter minus the deletion counter equals
A+C+G+T+N — the four strict nucleotide buckets plus the `N` bucket fed by
non-ACGT query bases; it equals A+C+G+T exactly when the `N` counter is 0. -/
theorem claim_C2_depth_formula (t : Tally) :
    depthOf t = t.A + t.C + t.G + t.T + t.N := by
  simp only [depthOf, Tally.items, List.map_cons, List.map_nil, List.sum_cons, List.sum_nil]
  omega

/-! ## Claim C4: indel boundary attribution -/

/-- Claim C4: for CIGAR `5M2I5M` at 0-based start 100, each of positions
100-109 receives exactly one matched-base increment and position 104 exactly
one insertion increment; for `5M3D5M` at the same start, position 104 receives
exactly one deletion increment and no tally is created at 105-107, the
reference position jumping to 108. -/
theorem claim_C4_indel_boundary :
    (applyCigar (seqA 12) ['5', 'M', '2', 'I', '5', 'M'] 100 []).pileup =
      [(100, ⟨1, 0, 0, 0, 0, 0, 0⟩), (101, ⟨1, 0, 0, 0, 0, 0, 0⟩),
       (102, ⟨1, 0, 0, 0, 0, 0, 0⟩), (103, ⟨1, 0, 0, 0, 0, 0, 0⟩),
       (104, ⟨1, 0, 0, 0, 1, 0, 0⟩), (105, ⟨1, 0, 0, 0, 0, 0, 0⟩),
       (106, ⟨1, 0, 0, 0, 0, 0, 0⟩), (107, ⟨1, 0, 0, 0, 0, 0, 0⟩),
       (108, ⟨1, 0, 0, 0, 0, 0, 0⟩), (109, ⟨1, 0, 0, 0, 0, 0, 0⟩)] ∧
    (applyCigar (seqA 10) ['5', 'M', '3', 'D', '5', 'M'] 100 []).pileup =
      [(100, ⟨1, 0, 0, 0, 0, 0, 0⟩), (101, ⟨1, 0, 0, 0, 0, 0, 0⟩),
       (102, ⟨1, 0, 0, 0, 0, 0, 0⟩), (103, ⟨1, 0, 0, 0, 0, 0, 0⟩),
       (104, ⟨1, 0, 0, 0, 0, 1, 0⟩), (108, ⟨1, 0, 0, 0, 0, 0, 0⟩),
       (109, ⟨1, 0, 0, 0, 0, 0, 0⟩), (110, ⟨1, 0, 0, 0, 0, 0, 0⟩),
       (111, ⟨1, 0, 0, 0, 0, 0, 0⟩), (112, ⟨1, 0, 0, 0, 0, 0, 0⟩)] := by
  refine ⟨by decide, by decide⟩

/-! ## Claim C9: process exit codes -/

/-- Claim C9: the process exits 0 exactly on normal completion — fasta index
present, reference retrieval succeeded with a non-empty sequence, and no
missing-contig BED failure — independent of the number of reads processed
(in particular with zero reads processed), and exits 1 on a missing fasta
index, a failed or empty reference retrieval, or a BED file lacking the
requested contig. -/
theorem claim_C9_exit_codes :
    (∀ (faiExists : Bool) (referenceSequence : Option (List Char))
       (bedGiven bedHasCtg : Bool) (numReads : Nat),
      exitCodeOf faiExists referenceSequence bedGiven bedHasCtg numReads = 0 ↔
        faiExists = true ∧ ∃ s, referenceSequence = some s ∧ s ≠ [] ∧
          (bedGiven = true → bedHasCtg = true)) ∧
    exitCodeOf true (some ['A']) false false 0 = 0 ∧
    exitCodeOf false (some ['A']) false false 5 = 1 ∧
    exitCodeOf true none false false 5 = 1 ∧
    exitCodeOf true (some []) false false 5 = 1 ∧
    exitCodeOf true (some ['A']) true false 5 = 1 := by
  refine ⟨?_, by decide, by decide, by decide, by decide, by decide⟩
  intro faiExists referenceSequence bedGiven bedHasCtg numReads
  cases faiExists with
  | false => simp [exitCodeOf]
  | true =>
    cases referenceSequence with
    | none => simp [exitCodeOf]
    | some s =>
      by_cases hs : s = []
      · subst hs; simp [exitCodeOf]
      · have hlen : s.length ≠ 0 := by simpa [List.length_eq_zero] using hs
        cases bedGiven with
        | false => simp [exitCodeOf, hlen, hs]
        | true => cases bedHasCtg with
          | false => simp [exitCodeOf, hlen, hs]
          | true => simp [exitCodeOf, hlen, hs]

/-! ## Claim C5: soft-clip admission filter -/

/-- The fused scan of the soft-clip filter computes the two sums the spec
describes separately: total soft-clipped bases and total CIGAR-spanned
length. -/
theorem softClipScan_eq (cs : List Char) :
    ∀ (soft total advance : Nat),
      softClipScan cs soft total advance =
        (soft + (((cigarOps cs advance).filter (fun oc => oc.2 = 'S')).map Prod.fst).sum,
         total + ((cigarOps cs advance).map Prod.fst).sum) := by
  induction cs with
  | nil => intro soft total advance; simp [softClipScan, cigarOps]
  | cons c cs ih =>
    intro soft total advance
    by_cases hd : c.isDigit
    · simp only [softClipScan, cigarOps, if_pos hd]
      exact ih _ _ _
    · by_cases hS : c = 'S'
      · subst hS
        simp only [softClipScan, cigarOps, if_neg hd]
        rw [ih]
        simp [List.filter_cons]
        omega
      · simp only [softClipScan, cigarOps, if_neg hd, if_neg hS]
        rw [ih]
        simp [List.filter_cons, hS]
        omega

/-- Claim C5: a read is rejected by the admission filter exactly when
`1 - softClipped / (totalSpan + 1) < 0.55`, where `totalSpan` sums the lengths
of all CIGAR operations; the concrete read `80S20M` is rejected and, when
processed by the driver, contributes no pileup increment, no processed-read
count and no candidate. -/
theorem claim_C5_soft_clip (CIGAR : List Char) (st : DriverState) :
    (is_too_many_soft_clipped_bases_for_a_read_from CIGAR =
      decide ((1 : ℚ) - (softClippedOf CIGAR : ℚ) / ((totalSpanOf CIGAR : ℚ) + 1) <
        55 / 100)) ∧
    is_too_many_soft_clipped_bases_for_a_read_from ['8', '0', 'S', '2', '0', 'M'] = true ∧
    (processRecord cfgPlain [] st readSoftClipped).pileup = st.pileup ∧
    (processRecord cfgPlain [] st readSoftClipped).number_of_reads_processed =
      st.number_of_reads_processed ∧
    (processRecord cfgPlain [] st readSoftClipped).cands = st.cands := by
  refine ⟨?_, by with_unfolding_all decide, ?_, ?_, ?_⟩
  · simp [is_too_many_soft_clipped_bases_for_a_read_from, softClipScan_eq,
      softClippedOf, totalSpanOf]
  · with_unfolding_all rfl
  · with_unfolding_all rfl
  · with_unfolding_all rfl

/-! ## Claim C3: allele-frequency stage -/

/-- The `depth if depth > 0 else 1` denominator is `max depth 1`. -/
theorem denominatorOf_eq_max (depth : Nat) : denominatorOf depth = max depth 1 := by
  unfold denominatorOf
  split <;> omega

/-- Claim C3: a position reaching the allele-frequency stage is accepted
exactly when the top-ranked symbol of the descending count sort differs from
the reference base, or the second-ranked count divided by `max(depth, 1)` is
at least the configured threshold; the effective threshold in training mode is
0, and with threshold 0 the stage always accepts. -/
theorem claim_C3_allele_frequency (t : Tally) (reference_base : Char)
    (minimum_af : ℚ) (cfg : Config) :
    (passAf t reference_base minimum_af =
      ((((sortBaseCount t.items).headD ('?', 0)).1 != reference_base) ||
        decide ((((sortBaseCount t.items).get? 1).getD ('?', 0)).2 /
          ((max (depthOf t) 1 : Nat) : ℚ) ≥ minimum_af))) ∧
    effectiveMinAf { cfg with gen4Training := true } = 0 ∧
    passAf t reference_base 0 = true := by
  refine ⟨?_, rfl, ?_⟩
  · unfold passAf
    rw [denominatorOf_eq_max]
  · unfold passAf
    rw [Bool.or_eq_true]
    right
    rw [decide_eq_true_eq]
    exact div_nonneg (Nat.cast_nonneg _) (Nat.cast_nonneg _)

/-! ## Claim C8: proximity index builder -/

/-- Membership transfer along `nearKey`: for a fixed variant, built keys are
in bijection with their offsets. -/
theorem mem_map_nearKey (c : String) (p : Int) (S : List Int) (a : Int) :
    ((c, p + a) ∈ S.map (nearKey c p)) ↔ a ∈ S := by
  simp [nearKey, List.mem_map, Prod.ext_iff]

/-- Dict insertion commutes with the offset-to-key translation. -/
theorem dictInsert_map_nearKey (c : String) (p : Int) (S : List Int) (a : Int) :
    dictInsert (S.map (nearKey c p)) (c, p + a) =
      (insertAbsentInt S a).map (nearKey c p) := by
  unfold dictInsert insertAbsentInt
  by_cases h : a ∈ S
  · rw [if_pos ((mem_map_nearKey c p S a).mpr h), if_pos h]
  · rw [if_neg (fun hl => h ((mem_map_nearKey c p S a).mp hl)), if_neg h,
      List.map_append]
    rfl

/-- One step of the inner offset loop is simulated by its offset-level mirror
whenever the variant position exceeds the outer window (so `temp_position` is
always positive). -/
theorem nonVariantsStep_sim (lower upper : Nat) (c : String) (p : Int)
    (hp : (upper : Int) < p) (S E : List Int) (i : Nat) :
    nonVariantsStep lower upper [(c, p)] c p
        (S.map (nearKey c p), E.map (nearKey c p)) i =
      ((offStep lower upper (S, E) i).1.map (nearKey c p),
       (offStep lower upper (S, E) i).2.map (nearKey c p)) := by
  have hguard : ¬ (p + (-(upper : Int) + (i : Int)) ≤ 0) := by omega
  have hvar : ((c, p + (-(upper : Int) + (i : Int))) ∈ ([(c, p)] : List (String × Int)))
      ↔ (-(upper : Int) + (i : Int)) = 0 := by
    simp [Prod.ext_iff]
  have hA : ((c, p + (-(upper : Int) + (i : Int))) ∉ ([(c, p)] : List (String × Int)) ∧
      (c, p + (-(upper : Int) + (i : Int))) ∉ S.map (nearKey c p) ∧
      (-(upper : Int) ≤ -(upper : Int) + (i : Int) ∧
        -(upper : Int) + (i : Int) ≤ -(lower : Int) ∨
       (lower : Int) ≤ -(upper : Int) + (i : Int) ∧
        -(upper : Int) + (i : Int) ≤ (upper : Int))) ↔
      ((-(upper : Int) + (i : Int)) ≠ 0 ∧
       (-(upper : Int) + (i : Int)) ∉ S ∧
       (-(upper : Int) ≤ -(upper : Int) + (i : Int) ∧
        -(upper : Int) + (i : Int) ≤ -(lower : Int) ∨
       (lower : Int) ≤ -(upper : Int) + (i : Int) ∧
        -(upper : Int) + (i : Int) ≤ (upper : Int))) :=
    and_congr (not_congr hvar)
      (and_congr (not_congr (mem_map_nearKey c p S _)) Iff.rfl)
  simp only [nonVariantsStep, offStep, if_neg hguard]
  rw [if_congr hA rfl rfl]
  by_cases hR : (-(upper : Int) + (i : Int)) ≠ 0 ∧
      (-(upper : Int) + (i : Int)) ∉ S ∧
      (-(upper : Int) ≤ -(upper : Int) + (i : Int) ∧
        -(upper : Int) + (i : Int) ≤ -(lower : Int) ∨
       (lower : Int) ≤ -(upper : Int) + (i : Int) ∧
        -(upper : Int) + (i : Int) ≤ (upper : Int))
  · simp only [if_pos hR]
    by_cases hX : -(lower : Int) < -(upper : Int) + (i : Int) ∧
        -(upper : Int) + (i : Int) < (lower : Int)
    · simp only [if_pos hX]
      rw [dictInsert_map_nearKey, dictInsert_map_nearKey]
    · simp only [if_neg hX]
      rw [dictInsert_map_nearKey]
  · simp only [if_neg hR]
    by_cases hX : -(lower : Int) < -(upper : Int) + (i : Int) ∧
        -(upper : Int) + (i : Int) < (lower : Int)
    · simp only [if_pos hX]
      rw [dictInsert_map_nearKey]
    · simp only [if_neg hX]

/-- Whole inner loop simulation. -/
theorem foldOffsets_sim (lower upper : Nat) (c : String) (p : Int)
    (hp : (upper : Int) < p) :
    ∀ (is : List Nat) (S E : List Int),
      is.foldl (nonVariantsStep lower upper [(c, p)] c p)
          (S.map (nearKey c p), E.map (nearKey c p)) =
        ((is.foldl (offStep lower upper) (S, E)).1.map (nearKey c p),
         (is.foldl (offStep lower upper) (S, E)).2.map (nearKey c p)) := by
  intro is
  induction is with
  | nil => intro S E; rfl
  | cons i is ih =>
    intro S E
    rw [List.foldl_cons, List.foldl_cons, nonVariantsStep_sim lower upper c p hp S E i]
    rw [ih (offStep lower upper (S, E) i).1 (offStep lower upper (S, E) i).2]

/-- Filtering the exclusion band commutes with the offset-to-key translation. -/
theorem filter_map_nearKey (c : String) (p : Int) (E : List Int) :
    ∀ S : List Int,
      (S.map (nearKey c p)).filter (fun k => k ∉ E.map (nearKey c p)) =
        (S.filter (fun o => o ∉ E)).map (nearKey c p) := by
  intro S
  induction S with
  | nil => rfl
  | cons a S ih =>
    simp only [List.map_cons, List.filter_cons]
    by_cases h : a ∈ E
    · have h' : nearKey c p a ∈ E.map (nearKey c p) := List.mem_map_of_mem _ h
      rw [if_neg (by simpa using h'), if_neg (by simpa using h), ih]
    · have h' : nearKey c p a ∉ E.map (nearKey c p) := fun hm =>
        h ((mem_map_nearKey c p E a).mp hm)
      rw [if_pos (by simpa using h'), if_pos (by simpa using h), List.map_cons, ih]

set_option maxRecDepth 40000 in
/-- Claim C8: for a single known variant at (contig `c`, 1-based position `p`)
with `p > 16`, the proximity index is exactly the four positions at offsets
−16, −15, +15, +16, in that construction order, and the variant position
itself is never in the result. -/
theorem claim_C8_proximity_index (c : String) (p : Int) (hp : 16 < p) :
    non_variants_map_near_variants_from [(c, p)] 15 16 =
      [(c, p - 16), (c, p - 15), (c, p + 15), (c, p + 16)] ∧
    (c, p) ∉ non_variants_map_near_variants_from [(c, p)] 15 16 := by
  have hp' : ((16 : Nat) : Int) < p := by exact_mod_cast hp
  have hcomp : ((List.range (16 * 2 + 1)).foldl (offStep 15 16) ([], [])) =
      ([-16, -15, 15, 16],
       [-14, -13, -12, -11, -10, -9, -8, -7, -6, -5, -4, -3, -2, -1, 0,
        1, 2, 3, 4, 5, 6, 7, 8, 9, 10, 11, 12, 13, 14]) := by decide
  have hmain : non_variants_map_near_variants_from [(c, p)] 15 16 =
      [(c, p - 16), (c, p - 15), (c, p + 15), (c, p + 16)] := by
    unfold non_variants_map_near_variants_from
    simp only [List.foldl_cons, List.foldl_nil]
    have h0 := foldOffsets_sim 15 16 c p hp' (List.range (16 * 2 + 1)) [] []
    simp only [List.map_nil] at h0
    simp only [h0, hcomp]
    rw [filter_map_nearKey c p]
    have hfilter : (([-16, -15, 15, 16] : List Int).filter
        (fun o => o ∉ ([-14, -13, -12, -11, -10, -9, -8, -7, -6, -5, -4, -3, -2, -1, 0,
          1, 2, 3, 4, 5, 6, 7, 8, 9, 10, 11, 12, 13, 14] : List Int))) =
        [-16, -15, 15, 16] := by decide
    rw [hfilter]
    simp only [List.map_cons, List.map_nil, nearKey, List.cons.injEq, Prod.mk.injEq,
      eq_self_iff_true, and_true, true_and]
    omega
  refine ⟨hmain, ?_⟩
  rw [hmain]
  simp only [List.mem_cons, List.not_mem_nil, Prod.mk.injEq, or_false]
  push_neg
  refine ⟨fun _ => by omega, fun _ => by omega, fun _ => by omega, fun _ => by omega⟩

/-- Witness for claim C8 at contig "chr1", position 1000. -/
theorem claim_C8_witness :
    (16 : Int) < 1000 ∧
    non_variants_map_near_variants_from [("chr1", 1000)] 15 16 =
      [("chr1", 984), ("chr1", 985), ("chr1", 1015), ("chr1", 1016)] := by
  refine ⟨by decide, ?_⟩
  have h := (claim_C8_proximity_index "chr1" 1000 (by decide)).1
  rw [h]
  norm_num

/-! ## Claim C10: deterministic tie-breaking of the descending sort -/

/-- Claim C10: the descending count sort is stable over the fixed bucket
construction order A, C, G, T, I, D, N — any two tally entries with equal
counts keep their relative order — and when a non-reference bucket that comes
before the reference bucket ties it for the highest count, the top-ranked
symbol differs from the reference base and the allele-frequency test passes. -/
theorem claim_C10_stable_descending_sort (t : Tally) (x y : Char × Nat)
    (reference_base : Char) (minimum_af : ℚ) :
    ([x, y] <+ t.items → x.2 = y.2 → [x, y] <+ sortBaseCount t.items) ∧
    ([x, y] <+ t.items → x.2 = y.2 → (∀ z ∈ t.items, z.2 ≤ y.2) →
      x.1 ≠ reference_base → y.1 = reference_base →
      ((sortBaseCount t.items).headD ('?', 0)).1 ≠ reference_base ∧
      passAf t reference_base minimum_af = true) := by
  have hstable : [x, y] <+ t.items → x.2 = y.2 → [x, y] <+ sortBaseCount t.items := by
    intro hsub heq
    refine List.sublist_insertionSort ?_ hsub
    refine List.pairwise_cons.mpr ⟨?_, List.pairwise_singleton _ _⟩
    intro z hz
    rw [List.mem_singleton] at hz
    subst hz
    exact le_of_eq heq.symm
  refine ⟨hstable, ?_⟩
  intro hsub heq hmax hxne hy
  have hkeys : t.items.map Prod.fst = ['A', 'C', 'G', 'T', 'I', 'D', 'N'] := rfl
  have hknodup : (t.items.map Prod.fst).Nodup := by rw [hkeys]; decide
  have hnodup : t.items.Nodup := List.Nodup.of_map _ hknodup
  have hperm : sortBaseCount t.items ~ t.items := List.perm_insertionSort _ _
  have hS : [x, y] <+ sortBaseCount t.items := hstable hsub heq
  have hlen : (sortBaseCount t.items).length = 7 := by rw [hperm.length_eq]; rfl
  obtain ⟨h, tl, hcons⟩ : ∃ h tl, sortBaseCount t.items = h :: tl := by
    cases hSs : sortBaseCount t.items with
    | nil => rw [hSs] at hlen; simp at hlen
    | cons a l => exact ⟨a, l, rfl⟩
  have hhead : (sortBaseCount t.items).headD ('?', 0) = h := by rw [hcons]; rfl
  have htop : h.1 ≠ reference_base := by
    intro hh
    have hy_mem : y ∈ t.items := hsub.subset (by simp)
    have hh_mem : h ∈ t.items := hperm.subset (by rw [hcons]; simp)
    have hxy : h = y :=
      List.inj_on_of_nodup_map hknodup hh_mem hy_mem (by rw [hh, hy])
    rw [hcons, hxy] at hS
    cases hS with
    | cons _ h' =>
      have hytl : y ∈ tl := h'.subset (by simp)
      have hSnodup : (sortBaseCount t.items).Nodup := hperm.nodup_iff.mpr hnodup
      rw [hcons, hxy] at hSnodup
      exact (List.nodup_cons.mp hSnodup).1 hytl
    | cons₂ _ h' =>
      exact hxne hy
  refine ⟨by rw [hhead]; exact htop, ?_⟩
  simp only [passAf]
  rw [Bool.or_eq_true]
  left
  rw [bne_iff_ne, hhead]
  exact htop

/-- Witness for claim C10: tally with A-count = C-count = 2 (the maximum),
reference base `C`: bucket `A` ranks first and the test passes. -/
theorem claim_C10_witness :
    (([('A', 2), ('C', 2)] : List (Char × Nat)) <+ Tally.items ⟨2, 2, 1, 0, 0, 0, 0⟩) ∧
    (∀ z ∈ Tally.items ⟨2, 2, 1, 0, 0, 0, 0⟩, z.2 ≤ 2) ∧
    ((sortBaseCount (Tally.items ⟨2, 2, 1, 0, 0, 0, 0⟩)).headD ('?', 0)).1 ≠ 'C' ∧
    passAf ⟨2, 2, 1, 0, 0, 0, 0⟩ 'C' (1 / 8) = true := by
  refine ⟨by decide, by decide, ?_⟩
  exact (claim_C10_stable_descending_sort ⟨2, 2, 1, 0, 0, 0, 0⟩ ('A', 2) ('C', 2) 'C'
    (1 / 8)).2 (by decide) (by decide) (by decide) (by decide) (by decide)

/-! ## Structural lemmas on the position filter pipeline -/

/-- The descending sort of a tally breakdown has the full seven buckets. -/
theorem sortBaseCount_items_length (t : Tally) : (sortBaseCount t.items).length = 7 := by
  unfold sortBaseCount
  rw [(List.perm_insertionSort countGe t.items).length_eq]
  rfl

/-- The descending sort is sorted for the descending-count order. -/
theorem sortBaseCount_sorted (bc : List (Char × Nat)) :
    (sortBaseCount bc).Sorted countGe :=
  List.sorted_insertionSort countGe bc

/-- The emit stage never modifies the pileup. -/
theorem emitStage_pileup (cfg : Config) (st : DriverState) (pos : Int)
    (ks : Option Bool) : (emitStage cfg st pos ks).pileup = st.pileup := by
  unfold emitStage
  cases hpy : pyStringIndex cfg.refSeq (pos - refOffset cfg) with
  | none => rfl
  | some ch =>
    dsimp only
    split
    · rfl
    · split
      · rfl
      · cases ks with
        | none => rfl
        | some b => cases b <;> rfl

/-- The emit stage never modifies the horizon variable. -/
theorem emitStage_POS (cfg : Config) (st : DriverState) (pos : Int)
    (ks : Option Bool) : (emitStage cfg st pos ks).POS = st.POS := by
  unfold emitStage
  cases hpy : pyStringIndex cfg.refSeq (pos - refOffset cfg) with
  | none => rfl
  | some ch =>
    dsimp only
    split
    · rfl
    · split
      · rfl
      · cases ks with
        | none => rfl
        | some b => cases b <;> rfl

/-- The emit stage appends at most one candidate, at the drained position and
of the formatted shape. -/
theorem emitStage_cands (cfg : Config) (st : DriverState) (pos : Int)
    (ks : Option Bool) :
    ∃ tail, (emitStage cfg st pos ks).cands = st.cands ++ tail ∧
      tail.map Prod.fst <+ [pos] ∧ ∀ pr ∈ tail, GoodCand cfg pr := by
  unfold emitStage
  cases hpy : pyStringIndex cfg.refSeq (pos - refOffset cfg) with
  | none => exact ⟨[], by simp⟩
  | some ch =>
    dsimp only
    split
    · exact ⟨[], by simp⟩
    · split
      · exact ⟨[], by simp⟩
      · refine ⟨[(pos, formatCandidate cfg.ctgName (pos + 1) (evc_base_from ch)
          (depthOf (pileupGet st.pileup pos))
          (sortBaseCount (pileupGet st.pileup pos).items))], ?_, ?_, ?_⟩
        · cases ks with
          | none => rfl
          | some b => cases b <;> rfl
        · simp
        · intro pr hpr
          rw [List.mem_singleton] at hpr
          subst hpr
          exact ⟨evc_base_from ch, pileupGet st.pileup pos, rfl,
            sortBaseCount_items_length _, sortBaseCount_sorted _⟩

/-- The position filter never modifies the pileup. -/
theorem processPosition_pileup (cfg : Config) (nonVariants : List (String × Int))
    (st : DriverState) (pos : Int) :
    (processPosition cfg nonVariants st pos).pileup = st.pileup := by
  unfold processPosition
  split
  · rfl
  · split
    · dsimp only
      split
      · rfl
      · split
        · split
          · rw [emitStage_pileup]
          · rfl
        · split
          · rw [emitStage_pileup]
          · rfl
    · split
      · dsimp only
        split
        · rw [emitStage_pileup]
        · rfl
      · rw [emitStage_pileup]

/-- The position filter never modifies the horizon variable. -/
theorem processPosition_POS (cfg : Config) (nonVariants : List (String × Int))
    (st : DriverState) (pos : Int) :
    (processPosition cfg nonVariants st pos).POS = st.POS := by
  unfold processPosition
  split
  · rfl
  · split
    · dsimp only
      split
      · rfl
      · split
        · split
          · rw [emitStage_POS]
          · rfl
        · split
          · rw [emitStage_POS]
          · rfl
    · split
      · dsimp only
        split
        · rw [emitStage_POS]
        · rfl
      · rw [emitStage_POS]

/-- The position filter appends at most one candidate, at the drained position
and of the formatted shape. -/
theorem processPosition_cands (cfg : Config) (nonVariants : List (String × Int))
    (st : DriverState) (pos : Int) :
    ∃ tail, (processPosition cfg nonVariants st pos).cands = st.cands ++ tail ∧
      tail.map Prod.fst <+ [pos] ∧ ∀ pr ∈ tail, GoodCand cfg pr := by
  unfold processPosition
  split
  · exact ⟨[], by simp⟩
  · split
    · dsimp only
      split
      · exact ⟨[], by simp⟩
      · split
        · split
          · exact emitStage_cands cfg _ pos _
          · exact ⟨[], by simp⟩
        · split
          · exact emitStage_cands cfg _ pos _
          · exact ⟨[], by simp⟩
    · split
      · dsimp only
        split
        · exact emitStage_cands cfg _ pos _
        · exact ⟨[], by simp⟩
      · exact emitStage_cands cfg _ pos _

/-- The emission loop over a batch of positions: candidates are appended, in
order, at a subsequence of the batch positions, all well-formed. -/
theorem foldPositions_cands (cfg : Config) (nonVariants : List (String × Int)) :
    ∀ (ps : List Int) (st : DriverState),
      ∃ tail, (ps.foldl (processPosition cfg nonVariants) st).cands = st.cands ++ tail ∧
        tail.map Prod.fst <+ ps ∧ ∀ pr ∈ tail, GoodCand cfg pr := by
  intro ps
  induction ps with
  | nil => intro st; exact ⟨[], by simp⟩
  | cons p ps ih =>
    intro st
    obtain ⟨t1, h1, hs1, hg1⟩ := processPosition_cands cfg nonVariants st p
    obtain ⟨t2, h2, hs2, hg2⟩ := ih (processPosition cfg nonVariants st p)
    refine ⟨t1 ++ t2, ?_, ?_, ?_⟩
    · rw [List.foldl_cons, h2, h1, List.append_assoc]
    · rw [List.map_append]
      exact List.Sublist.append hs1 hs2
    · intro pr hpr
      rcases List.mem_append.mp hpr with h | h
      exacts [hg1 pr h, hg2 pr h]

/-- The emission loop never modifies the pileup. -/
theorem foldPositions_pileup (cfg : Config) (nonVariants : List (String × Int)) :
    ∀ (ps : List Int) (st : DriverState),
      (ps.foldl (processPosition cfg nonVariants) st).pileup = st.pileup := by
  intro ps
  induction ps with
  | nil => intro st; rfl
  | cons p ps ih =>
    intro st
    rw [List.foldl_cons, ih, processPosition_pileup]

/-- The emission loop never modifies the horizon variable. -/
theorem foldPositions_POS (cfg : Config) (nonVariants : List (String × Int)) :
    ∀ (ps : List Int) (st : DriverState),
      (ps.foldl (processPosition cfg nonVariants) st).POS = st.POS := by
  intro ps
  induction ps with
  | nil => intro st; rfl
  | cons p ps ih =>
    intro st
    rw [List.foldl_cons, ih, processPosition_POS]

/-- Candidates produced by one drain batch. -/
theorem drainPositions_cands (cfg : Config) (nonVariants : List (String × Int))
    (st : DriverState) (ps : List Int) :
    ∃ tail, (drainPositions cfg nonVariants st ps).cands = st.cands ++ tail ∧
      tail.map Prod.fst <+ ps ∧ ∀ pr ∈ tail, GoodCand cfg pr := by
  obtain ⟨tail, h1, h2, h3⟩ := foldPositions_cands cfg nonVariants ps st
  exact ⟨tail, h1, h2, h3⟩

/-- A drain removes exactly the batch keys from the pileup. -/
theorem drainPositions_pileup (cfg : Config) (nonVariants : List (String × Int))
    (st : DriverState) (ps : List Int) :
    (drainPositions cfg nonVariants st ps).pileup =
      st.pileup.filter (fun kv => !(ps.contains kv.1)) := by
  unfold drainPositions
  dsimp only
  rw [foldPositions_pileup]

/-- A drain leaves the horizon variable unchanged. -/
theorem drainPositions_POS (cfg : Config) (nonVariants : List (String × Int))
    (st : DriverState) (ps : List Int) :
    (drainPositions cfg nonVariants st ps).POS = st.POS := by
  unfold drainPositions
  exact foldPositions_POS cfg nonVariants ps st

/-- Candidates produced by one record-loop iteration are all well-formed. -/
theorem processRecord_cands (cfg : Config) (nonVariants : List (String × Int))
    (st : DriverState) (r : AlignmentRecord) :
    ∃ tail, (processRecord cfg nonVariants st r).cands = st.cands ++ tail ∧
      ∀ pr ∈ tail, GoodCand cfg pr := by
  unfold processRecord
  split
  · exact ⟨[], by simp⟩
  · split
    · exact ⟨[], by simp⟩
    · dsimp only
      split
      · exact ⟨[], by simp⟩
      · split
        · exact ⟨[], by simp⟩
        · obtain ⟨tail, h1, _, h3⟩ := drainPositions_cands cfg nonVariants _ _
          exact ⟨tail, h1, h3⟩

/-! ## Claim C6: output record shape -/

/-- Claim C6 (amended): every candidate the driver emits, in every run, is the
formatted line `contigName position referenceBase depth` followed by one
`symbol count` pair for each of the SEVEN tally buckets (A, C, G, T, I, D and
the additional N bucket) in descending count order, space-separated and
newline-terminated. -/
theorem claim_C6_candidate_shape (cfg : Config) (records : List AlignmentRecord) :
    ∀ pr ∈ (runMakeCandidates cfg records).cands, GoodCand cfg pr := by
  have hfold : ∀ (rs : List AlignmentRecord) (st : DriverState)
      (nv : List (String × Int)),
      (∀ pr ∈ st.cands, GoodCand cfg pr) →
      ∀ pr ∈ (rs.foldl (processRecord cfg nv) st).cands, GoodCand cfg pr := by
    intro rs
    induction rs with
    | nil => intro st nv h; exact h
    | cons r rs ih =>
      intro st nv h
      rw [List.foldl_cons]
      refine ih _ nv ?_
      obtain ⟨tail, h1, h2⟩ := processRecord_cands cfg nv st r
      rw [h1]
      intro pr hpr
      rcases List.mem_append.mp hpr with hm | hm
      exacts [h pr hm, h2 pr hm]
  unfold runMakeCandidates runFromState finalDrain
  obtain ⟨tail, h1, _, h3⟩ := drainPositions_cands cfg
    (non_variants_map_near_variants_from (variantsMap cfg) 15 16)
    (records.foldl (processRecord cfg
      (non_variants_map_near_variants_from (variantsMap cfg) 15 16)) initState) _
  rw [h1]
  intro pr hpr
  rcases List.mem_append.mp hpr with hm | hm
  · exact hfold records initState _ (by intro pr h; simp [initState] at h) pr hm
  · exact h3 pr hm

set_option maxRecDepth 100000 in
/-- Claim C6 is false as stated: the emitted line carries SEVEN (symbol count)
pairs, not six — a concrete accepted candidate line splits into 18
space-separated tokens, not the 4 + 2·6 = 16 the claim demands. -/
theorem claim_C6_counterexample :
    (runMakeCandidates cfgPlain [readM1]).cands =
      [(105, "c 106 C 1 A 1 C 0 G 0 T 0 I 0 D 0 N 0\n")] ∧
    (("c 106 C 1 A 1 C 0 G 0 T 0 I 0 D 0 N 0\n").splitOn " ").length = 18 ∧
    (("c 106 C 1 A 1 C 0 G 0 T 0 I 0 D 0 N 0\n").splitOn " ").length ≠ 4 + 2 * 6 := by
  refine ⟨by with_unfolding_all decide, by with_unfolding_all decide,
    by with_unfolding_all decide⟩

set_option maxRecDepth 100000 in
/-- Witness for claim C6 at the emitted candidate of a one-read run. -/
theorem claim_C6_witness :
    (105, "c 106 C 1 A 1 C 0 G 0 T 0 I 0 D 0 N 0\n") ∈
      (runMakeCandidates cfgPlain [readM1]).cands ∧
    GoodCand cfgPlain (105, "c 106 C 1 A 1 C 0 G 0 T 0 I 0 D 0 N 0\n") := by
  refine ⟨by with_unfolding_all decide, ?_⟩
  exact claim_C6_candidate_shape cfgPlain [readM1] _ (by with_unfolding_all decide)

/-! ## Claim C7: rejected records and driver state -/

/-- Reflexivity of agreement-except-POS. -/
theorem eqExceptPOS_refl (s : DriverState) : eqExceptPOS s s :=
  ⟨rfl, rfl, rfl, rfl, rfl, rfl⟩

/-- The emit stage reads and writes no component that depends on `POS`. -/
theorem emitStage_eqExceptPOS (cfg : Config) (pos : Int) (ks : Option Bool)
    {s s' : DriverState} (h : eqExceptPOS s s') :
    eqExceptPOS (emitStage cfg s pos ks) (emitStage cfg s' pos ks) := by
  cases s
  cases s'
  obtain ⟨h1, h2, h3, h4, h5, h6⟩ := h
  dsimp only at h1 h2 h3 h4 h5 h6
  subst h1 h2 h3 h4 h5 h6
  unfold emitStage
  cases hpy : pyStringIndex cfg.refSeq (pos - refOffset cfg) with
  | none => exact eqExceptPOS_refl _
  | some ch =>
    dsimp only
    split_ifs
    · exact eqExceptPOS_refl _
    · exact eqExceptPOS_refl _
    · cases ks with
      | none => exact ⟨rfl, rfl, rfl, rfl, rfl, rfl⟩
      | some b => cases b <;> exact ⟨rfl, rfl, rfl, rfl, rfl, rfl⟩

/-- The position filter reads and writes no component that depends on `POS`. -/
theorem processPosition_eqExceptPOS (cfg : Config) (nonVariants : List (String × Int))
    (pos : Int) {s s' : DriverState} (h : eqExceptPOS s s') :
    eqExceptPOS (processPosition cfg nonVariants s pos)
      (processPosition cfg nonVariants s' pos) := by
  cases s
  cases s'
  obtain ⟨h1, h2, h3, h4, h5, h6⟩ := h
  dsimp only at h1 h2 h3 h4 h5 h6
  subst h1 h2 h3 h4 h5 h6
  unfold processPosition
  dsimp only
  split_ifs
  all_goals first
    | exact eqExceptPOS_refl _
    | exact ⟨rfl, rfl, rfl, rfl, rfl, rfl⟩
    | exact emitStage_eqExceptPOS cfg pos _ ⟨rfl, rfl, rfl, rfl, rfl, rfl⟩

/-- The emission loop transports agreement-except-POS. -/
theorem foldPositions_eqExceptPOS (cfg : Config) (nonVariants : List (String × Int)) :
    ∀ (ps : List Int) {s s' : DriverState}, eqExceptPOS s s' →
      eqExceptPOS (ps.foldl (processPosition cfg nonVariants) s)
        (ps.foldl (processPosition cfg nonVariants) s') := by
  intro ps
  induction ps with
  | nil => intro s s' h; exact h
  | cons p ps ih =>
    intro s s' h
    rw [List.foldl_cons, List.foldl_cons]
    exact ih (processPosition_eqExceptPOS cfg nonVariants p h)

/-- Draining a batch transports agreement-except-POS. -/
theorem drainPositions_eqExceptPOS (cfg : Config) (nonVariants : List (String × Int))
    (ps : List Int) {s s' : DriverState} (h : eqExceptPOS s s') :
    eqExceptPOS (drainPositions cfg nonVariants s ps)
      (drainPositions cfg nonVariants s' ps) := by
  obtain ⟨h1, h2, h3, h4, h5, h6⟩ := foldPositions_eqExceptPOS cfg nonVariants ps h
  unfold drainPositions
  dsimp only
  exact ⟨by rw [h1], h2, h3, h4, h5, h6⟩

/-- One record-loop iteration transports agreement-except-POS. -/
theorem processRecord_eqExceptPOS (cfg : Config) (nonVariants : List (String × Int))
    (r : AlignmentRecord) {s s' : DriverState} (h : eqExceptPOS s s') :
    eqExceptPOS (processRecord cfg nonVariants s r)
      (processRecord cfg nonVariants s' r) := by
  cases s
  cases s'
  obtain ⟨h1, h2, h3, h4, h5, h6⟩ := h
  dsimp only at h1 h2 h3 h4 h5 h6
  subst h1 h2 h3 h4 h5 h6
  unfold processRecord
  dsimp only
  split_ifs
  · exact ⟨rfl, rfl, rfl, rfl, rfl, rfl⟩
  · exact ⟨rfl, rfl, rfl, rfl, rfl, rfl⟩
  · exact ⟨rfl, rfl, rfl, rfl, rfl, rfl⟩
  · exact ⟨rfl, rfl, rfl, rfl, rfl, rfl⟩
  · exact eqExceptPOS_refl _

/-- The record loop transports agreement-except-POS. -/
theorem foldRecords_eqExceptPOS (cfg : Config) (nonVariants : List (String × Int)) :
    ∀ (rs : List AlignmentRecord) {s s' : DriverState}, eqExceptPOS s s' →
      eqExceptPOS (rs.foldl (processRecord cfg nonVariants) s)
        (rs.foldl (processRecord cfg nonVariants) s') := by
  intro rs
  induction rs with
  | nil => intro s s' h; exact h
  | cons r rs ih =>
    intro s s' h
    rw [List.foldl_cons, List.foldl_cons]
    exact ih (processRecord_eqExceptPOS cfg nonVariants r h)

/-- The final drain transports agreement-except-POS. -/
theorem finalDrain_eqExceptPOS (cfg : Config) (nonVariants : List (String × Int))
    {s s' : DriverState} (h : eqExceptPOS s s') :
    eqExceptPOS (finalDrain cfg nonVariants s) (finalDrain cfg nonVariants s') := by
  unfold finalDrain
  have hp : s.pileup = s'.pileup := h.1
  rw [hp]
  exact drainPositions_eqExceptPOS cfg nonVariants _ h

/-- A record failing one of the four admission tests leaves the state
unchanged except possibly for the horizon variable, which is set to the
record's 0-based start when the record reached the per-record parsing. -/
theorem processRecord_rejected (cfg : Config) (nonVariants : List (String × Int))
    (st : DriverState) (r : AlignmentRecord)
    (hrej : r.MAPQ < cfg.minMQ ∨ r.CIGAR = ['*'] ∨
      is_too_many_soft_clipped_bases_for_a_read_from r.CIGAR = true ∨
      r.RNAME ≠ cfg.ctgName) :
    processRecord cfg nonVariants st r = st ∨
    processRecord cfg nonVariants st r = { st with POS := r.POS1 - 1 } := by
  unfold processRecord
  by_cases h1 : r.QNAME.head? = some '@'
  · rw [if_pos h1]
    exact Or.inl rfl
  · rw [if_neg h1]
    by_cases h2 : r.RNAME ≠ cfg.ctgName
    · rw [if_pos h2]
      exact Or.inl rfl
    · rw [if_neg h2]
      dsimp only
      by_cases h3 : r.MAPQ < cfg.minMQ
      · rw [if_pos h3]
        exact Or.inr rfl
      · rw [if_neg h3]
        by_cases h4 : (r.CIGAR = ['*'] ||
            is_too_many_soft_clipped_bases_for_a_read_from r.CIGAR) = true
        · rw [if_pos h4]
          exact Or.inr rfl
        · exfalso
          rcases hrej with h | h | h | h
          · exact h3 h
          · exact h4 (by simp [h])
          · exact h4 (by simp [h])
          · exact h2 h

/-- Claim C7 (amended): a record rejected by the admission filter produces no
candidate, no pileup update, no processed-read count, no sampling-stream
advance and no diagnostic-counter change; a contig-mismatch (or header) record
additionally leaves the horizon variable untouched, but a record rejected for
mapping quality, `*` CIGAR or excessive soft-clipping does set the horizon
variable to its start position — an update that is never observable in the
run's emitted output or any other component. -/
theorem claim_C7_rejection_effects (cfg : Config) (r : AlignmentRecord)
    (rest : List AlignmentRecord) (st : DriverState)
    (hrej : r.MAPQ < cfg.minMQ ∨ r.CIGAR = ['*'] ∨
      is_too_many_soft_clipped_bases_for_a_read_from r.CIGAR = true ∨
      r.RNAME ≠ cfg.ctgName) :
    (processRecord cfg (non_variants_map_near_variants_from (variantsMap cfg) 15 16) st r
        = st ∨
     processRecord cfg (non_variants_map_near_variants_from (variantsMap cfg) 15 16) st r
        = { st with POS := r.POS1 - 1 }) ∧
    (r.RNAME ≠ cfg.ctgName →
      processRecord cfg (non_variants_map_near_variants_from (variantsMap cfg) 15 16) st r
        = st) ∧
    eqExceptPOS (runFromState cfg (r :: rest) st) (runFromState cfg rest st) := by
  refine ⟨processRecord_rejected cfg _ st r hrej, ?_, ?_⟩
  · intro hname
    unfold processRecord
    by_cases h1 : r.QNAME.head? = some '@'
    · rw [if_pos h1]
    · rw [if_neg h1, if_pos hname]
  · unfold runFromState
    dsimp only
    rw [List.foldl_cons]
    rcases processRecord_rejected cfg
        (non_variants_map_near_variants_from (variantsMap cfg) 15 16) st r hrej with
      h | h
    · rw [h]
      exact eqExceptPOS_refl _
    · rw [h]
      exact finalDrain_eqExceptPOS cfg _
        (foldRecords_eqExceptPOS cfg _ rest ⟨rfl, rfl, rfl, rfl, rfl, rfl⟩)

/-- Claim C7 is false as stated: a record rejected for low mapping quality
still updates the horizon variable, so driver state is not the same as if the
record had not been read. -/
theorem claim_C7_counterexample :
    readLowMQ.MAPQ < cfgMQ.minMQ ∧
    (processRecord cfgMQ [] initState readLowMQ).POS ≠ initState.POS := by
  refine ⟨by decide, by with_unfolding_all decide⟩

/-- Witness for claim C7 on a concrete low-quality record. -/
theorem claim_C7_witness :
    (readLowMQ.MAPQ < cfgMQ.minMQ ∨ readLowMQ.CIGAR = ['*'] ∨
      is_too_many_soft_clipped_bases_for_a_read_from readLowMQ.CIGAR = true ∨
      readLowMQ.RNAME ≠ cfgMQ.ctgName) ∧
    eqExceptPOS (runFromState cfgMQ [readLowMQ] initState)
      (runFromState cfgMQ [] initState) :=
  ⟨Or.inl (by decide),
    (claim_C7_rejection_effects cfgMQ readLowMQ [] initState (Or.inl (by decide))).2.2⟩

/-! ## Claim C1: key-set lemmas for the CIGAR decoder -/

/-- Touching a position either leaves the key list unchanged or appends the
new key at the end. -/
theorem pileupKeys_touch (p : Pileup) (pos : Int) (sym : Char) :
    pileupKeys (pileupTouch p pos sym) =
      if pos ∈ pileupKeys p then pileupKeys p else pileupKeys p ++ [pos] := by
  induction p with
  | nil => simp [pileupTouch, pileupKeys]
  | cons kv rest ih =>
    obtain ⟨k, t⟩ := kv
    by_cases hk : k = pos
    · subst hk
      simp [pileupTouch, pileupKeys]
    · have step : pileupTouch ((k, t) :: rest) pos sym =
          (k, t) :: pileupTouch rest pos sym := by
        simp [pileupTouch, hk]
      rw [step]
      have hkeys1 : pileupKeys ((k, t) :: pileupTouch rest pos sym) =
          k :: pileupKeys (pileupTouch rest pos sym) := rfl
      have hkeys2 : pileupKeys ((k, t) :: rest) = k :: pileupKeys rest := rfl
      rw [hkeys1, hkeys2, ih]
      by_cases hm : pos ∈ pileupKeys rest
      · rw [if_pos hm, if_pos (List.mem_cons_of_mem k hm)]
      · rw [if_neg hm, if_neg ?_]
        · rfl
        · intro hcon
          rcases List.mem_cons.mp hcon with h | h
          · exact hk h.symm
          · exact hm h

/-- Membership in the touched pileup's key list. -/
theorem mem_pileupKeys_touch (p : Pileup) (pos k : Int) (sym : Char) :
    k ∈ pileupKeys (pileupTouch p pos sym) ↔ k ∈ pileupKeys p ∨ k = pos := by
  rw [pileupKeys_touch]
  by_cases hm : pos ∈ pileupKeys p
  · rw [if_pos hm]
    constructor
    · exact Or.inl
    · rintro (h | rfl)
      exacts [h, hm]
  · rw [if_neg hm]
    simp

/-- Touching preserves distinctness of the key list. -/
theorem nodup_pileupKeys_touch (p : Pileup) (pos : Int) (sym : Char)
    (h : (pileupKeys p).Nodup) : (pileupKeys (pileupTouch p pos sym)).Nodup := by
  rw [pileupKeys_touch]
  by_cases hm : pos ∈ pileupKeys p
  · rwa [if_pos hm]
  · rw [if_neg hm]
    simp [List.nodup_append, h, hm]

/-- Keys created by the matched-base loop: the old keys plus the interval
`[refPos, refPos + n)`. -/
theorem mem_pileupKeys_matchLoop (SEQ : List Char) :
    ∀ (n : Nat) (refPos : Int) (qryPos : Nat) (p : Pileup) (k : Int),
      k ∈ pileupKeys (matchLoop SEQ n refPos qryPos p) ↔
        k ∈ pileupKeys p ∨ (refPos ≤ k ∧ k < refPos + n) := by
  intro n
  induction n with
  | zero =>
    intro refPos qryPos p k
    unfold matchLoop
    constructor
    · exact Or.inl
    · rintro (h | ⟨h1, h2⟩)
      · exact h
      · omega
  | succ n ih =>
    intro refPos qryPos p k
    rw [show matchLoop SEQ (n + 1) refPos qryPos p =
      matchLoop SEQ n (refPos + 1) (qryPos + 1)
        (pileupTouch p refPos (evc_base_from (SEQ.getD qryPos 'N'))) from rfl]
    rw [ih (refPos + 1) (qryPos + 1) _ k, mem_pileupKeys_touch]
    constructor
    · rintro ((h | rfl) | ⟨h1, h2⟩)
      · exact Or.inl h
      · right; omega
      · right; constructor <;> omega
    · rintro (h | ⟨h1, h2⟩)
      · exact Or.inl (Or.inl h)
      · by_cases hk : k = refPos
        · exact Or.inl (Or.inr hk)
        · right; constructor <;> omega

/-- The matched-base loop preserves distinctness of the key list. -/
theorem nodup_pileupKeys_matchLoop (SEQ : List Char) :
    ∀ (n : Nat) (refPos : Int) (qryPos : Nat) (p : Pileup),
      (pileupKeys p).Nodup → (pileupKeys (matchLoop SEQ n refPos qryPos p)).Nodup := by
  intro n
  induction n with
  | zero => intro refPos qryPos p h; exact h
  | succ n ih =>
    intro refPos qryPos p h
    exact ih (refPos + 1) (qryPos + 1) _ (nodup_pileupKeys_touch p refPos _ h)

/-- The non-pileup components of the decoder state evolve independently of
the pileup contents. -/
theorem applyCigarChar_shadow (SEQ : List Char) (c : Char) (s₁ s₂ : ReadState)
    (hr : s₁.reference_position = s₂.reference_position)
    (hq : s₁.query_position = s₂.query_position)
    (ha : s₁.advance = s₂.advance) :
    (applyCigarChar SEQ s₁ c).reference_position =
      (applyCigarChar SEQ s₂ c).reference_position ∧
    (applyCigarChar SEQ s₁ c).query_position =
      (applyCigarChar SEQ s₂ c).query_position ∧
    (applyCigarChar SEQ s₁ c).advance = (applyCigarChar SEQ s₂ c).advance := by
  unfold applyCigarChar
  split_ifs <;> exact ⟨by simp [hr, hq, ha], by simp [hr, hq, ha], by simp [hr, hq, ha]⟩

/-- Keys created by one CIGAR character: the old keys plus `charTouched`. -/
theorem mem_pileupKeys_applyCigarChar (SEQ : List Char) (c : Char) (s : ReadState)
    (k : Int) :
    k ∈ pileupKeys (applyCigarChar SEQ s c).pileup ↔
      k ∈ pileupKeys s.pileup ∨ k ∈ charTouched s.reference_position s.advance c := by
  unfold applyCigarChar charTouched
  split_ifs
  · simp
  · simp
  · dsimp only
    rw [mem_pileupKeys_matchLoop]
    constructor
    · rintro (h | ⟨h1, h2⟩)
      · exact Or.inl h
      · refine Or.inr (List.mem_map.mpr ⟨(k - s.reference_position).toNat, ?_, ?_⟩)
        · exact List.mem_range.mpr (by omega)
        · omega
    · rintro (h | h)
      · exact Or.inl h
      · right
        rcases List.mem_map.mp h with ⟨j, hj, hjk⟩
        have hj' : j < s.advance := List.mem_range.mp hj
        constructor <;> omega
  · dsimp only
    rw [mem_pileupKeys_touch]
    simp
  · dsimp only
    rw [mem_pileupKeys_touch]
    simp
  · simp

/-- One CIGAR character preserves distinctness of the key list. -/
theorem nodup_pileupKeys_applyCigarChar (SEQ : List Char) (c : Char) (s : ReadState)
    (h : (pileupKeys s.pileup).Nodup) :
    (pileupKeys (applyCigarChar SEQ s c).pileup).Nodup := by
  unfold applyCigarChar
  split_ifs
  · exact h
  · exact h
  · exact nodup_pileupKeys_matchLoop SEQ _ _ _ _ h
  · exact nodup_pileupKeys_touch _ _ _ h
  · exact nodup_pileupKeys_touch _ _ _ h
  · exact h

/-- Keys created by decoding a CIGAR suffix do not depend on the pileup the
decoding started from: they are the initial keys plus the keys the same
decoding creates over an empty pileup. -/
theorem mem_pileupKeys_foldCigar (SEQ : List Char) :
    ∀ (cigar : List Char) (rp : Int) (qp advance : Nat) (P : Pileup) (k : Int),
      k ∈ pileupKeys (cigar.foldl (applyCigarChar SEQ) ⟨rp, qp, advance, P⟩).pileup ↔
        k ∈ pileupKeys P ∨
        k ∈ pileupKeys (cigar.foldl (applyCigarChar SEQ) ⟨rp, qp, advance, []⟩).pileup := by
  intro cigar
  induction cigar with
  | nil =>
    intro rp qp advance P k
    simp [pileupKeys]
  | cons c cs ih =>
    intro rp qp advance P k
    rw [List.foldl_cons, List.foldl_cons]
    obtain ⟨hR, hQ, hA⟩ := applyCigarChar_shadow SEQ c ⟨rp, qp, advance, P⟩
      ⟨rp, qp, advance, []⟩ rfl rfl rfl
    have e1 : cs.foldl (applyCigarChar SEQ) (applyCigarChar SEQ ⟨rp, qp, advance, P⟩ c) =
        cs.foldl (applyCigarChar SEQ)
          ⟨(applyCigarChar SEQ ⟨rp, qp, advance, P⟩ c).reference_position,
           (applyCigarChar SEQ ⟨rp, qp, advance, P⟩ c).query_position,
           (applyCigarChar SEQ ⟨rp, qp, advance, P⟩ c).advance,
           (applyCigarChar SEQ ⟨rp, qp, advance, P⟩ c).pileup⟩ := rfl
    have e2 : cs.foldl (applyCigarChar SEQ) (applyCigarChar SEQ ⟨rp, qp, advance, []⟩ c) =
        cs.foldl (applyCigarChar SEQ)
          ⟨(applyCigarChar SEQ ⟨rp, qp, advance, []⟩ c).reference_position,
           (applyCigarChar SEQ ⟨rp, qp, advance, []⟩ c).query_position,
           (applyCigarChar SEQ ⟨rp, qp, advance, []⟩ c).advance,
           (applyCigarChar SEQ ⟨rp, qp, advance, []⟩ c).pileup⟩ := rfl
    rw [e1, e2, ← hR, ← hQ, ← hA]
    rw [ih _ _ _ (applyCigarChar SEQ ⟨rp, qp, advance, P⟩ c).pileup k]
    rw [ih _ _ _ (applyCigarChar SEQ ⟨rp, qp, advance, []⟩ c).pileup k]
    have m1 := mem_pileupKeys_applyCigarChar SEQ c ⟨rp, qp, advance, P⟩ k
    have m2 : k ∈ pileupKeys (applyCigarChar SEQ ⟨rp, qp, advance, []⟩ c).pileup ↔
        k ∈ charTouched rp advance c := by
      have h := mem_pileupKeys_applyCigarChar SEQ c ⟨rp, qp, advance, []⟩ k
      simpa [pileupKeys] using h
    constructor
    · rintro (h | h)
      · rcases m1.mp h with h' | h'
        · exact Or.inl h'
        · exact Or.inr (Or.inl (m2.mpr h'))
      · exact Or.inr (Or.inr h)
    · rintro (h | h | h)
      · exact Or.inl (m1.mpr (Or.inl h))
      · exact Or.inl (m1.mpr (Or.inr (m2.mp h)))
      · exact Or.inr h

/-- Decoding a CIGAR preserves distinctness of the key list. -/
theorem nodup_pileupKeys_foldCigar (SEQ : List Char) :
    ∀ (cigar : List Char) (s : ReadState), (pileupKeys s.pileup).Nodup →
      (pileupKeys ((cigar.foldl (applyCigarChar SEQ) s)).pileup).Nodup := by
  intro cigar
  induction cigar with
  | nil => intro s h; exact h
  | cons c cs ih =>
    intro s h
    rw [List.foldl_cons]
    exact ih _ (nodup_pileupKeys_applyCigarChar SEQ c s h)

/-- Keys of a decoded read over an arbitrary pileup: the old keys plus the
read's own touched key set. -/
theorem mem_pileupKeys_applyCigar (SEQ CIGAR : List Char) (startPos : Int)
    (P : Pileup) (k : Int) :
    k ∈ pileupKeys (applyCigar SEQ CIGAR startPos P).pileup ↔
      k ∈ pileupKeys P ∨ k ∈ pileupKeys (applyCigar SEQ CIGAR startPos []).pileup :=
  mem_pileupKeys_foldCigar SEQ CIGAR startPos 0 0 P k

/-- Membership in the keys remaining after a drain's deletion pass. -/
theorem mem_pileupKeys_filter (L : Pileup) (ps : List Int) (k : Int) :
    k ∈ pileupKeys (L.filter (fun kv => !(ps.contains kv.1))) ↔
      k ∈ pileupKeys L ∧ k ∉ ps := by
  unfold pileupKeys
  constructor
  · intro h
    rcases List.mem_map.mp h with ⟨kv, hkv, rfl⟩
    rcases List.mem_filter.mp hkv with ⟨hmem, hcond⟩
    refine ⟨List.mem_map_of_mem _ hmem, fun hin => ?_⟩
    rw [Bool.not_eq_true'] at hcond
    simp at hcond
    exact hcond hin
  · rintro ⟨h, hnin⟩
    rcases List.mem_map.mp h with ⟨kv, hkv, rfl⟩
    refine List.mem_map_of_mem _ (List.mem_filter.mpr ⟨hkv, ?_⟩)
    rw [Bool.not_eq_true']
    simpa using hnin

/-- Sorting the coordinates is a permutation. -/
theorem sortInts_perm (l : List Int) : sortInts l ~ l :=
  List.perm_insertionSort _ l

/-- A sorted list of distinct coordinates is strictly increasing. -/
theorem sortInts_pairwise_lt (l : List Int) (h : l.Nodup) :
    (sortInts l).Pairwise (· < ·) := by
  have hs : (sortInts l).Sorted (fun a b : Int => a ≤ b) :=
    List.sorted_insertionSort _ l
  have hn : (sortInts l).Nodup := (sortInts_perm l).nodup_iff.mpr h
  exact hs.lt_of_le hn

/-- Draining every held position strictly below the horizon `q` preserves the
emission invariant, in a state whose emitted positions are strictly
increasing, smaller than every live key and smaller than `q`, with distinct
keys. -/
theorem drainStep_InvC1 (cfg : Config) (nonVariants : List (String × Int))
    (st₁ : DriverState) (q : Int)
    (hq : st₁.POS = q)
    (hpw : (st₁.cands.map Prod.fst).Pairwise (· < ·))
    (hall : ∀ e ∈ st₁.cands.map Prod.fst, ∀ k ∈ pileupKeys st₁.pileup, e < k)
    (hhor : ∀ e ∈ st₁.cands.map Prod.fst, e < q)
    (hnodup1 : (pileupKeys st₁.pileup).Nodup) :
    InvC1 (drainPositions cfg nonVariants st₁
      (sortInts ((pileupKeys st₁.pileup).filter (fun x => decide (x < q))))) ∧
    (drainPositions cfg nonVariants st₁
      (sortInts ((pileupKeys st₁.pileup).filter (fun x => decide (x < q))))).POS = q := by
  have hfil_nodup : ((pileupKeys st₁.pileup).filter (fun x => decide (x < q))).Nodup :=
    hnodup1.filter _
  have hPS_perm : sortInts ((pileupKeys st₁.pileup).filter (fun x => decide (x < q))) ~
      (pileupKeys st₁.pileup).filter (fun x => decide (x < q)) := sortInts_perm _
  have hPS_sorted : (sortInts ((pileupKeys st₁.pileup).filter
      (fun x => decide (x < q)))).Pairwise (· < ·) :=
    sortInts_pairwise_lt _ hfil_nodup
  have hPS_mem : ∀ x, x ∈ sortInts ((pileupKeys st₁.pileup).filter
      (fun x => decide (x < q))) ↔ x ∈ pileupKeys st₁.pileup ∧ x < q := by
    intro x
    rw [hPS_perm.mem_iff, List.mem_filter]
    simp
  obtain ⟨tail, hcands, hsub, hgood⟩ := drainPositions_cands cfg nonVariants st₁
    (sortInts ((pileupKeys st₁.pileup).filter (fun x => decide (x < q))))
  have htail_mem : ∀ x ∈ tail.map Prod.fst, x ∈ pileupKeys st₁.pileup ∧ x < q := by
    intro x hx
    exact (hPS_mem x).mp (hsub.subset hx)
  have hpile := drainPositions_pileup cfg nonVariants st₁
    (sortInts ((pileupKeys st₁.pileup).filter (fun x => decide (x < q))))
  have hPOS := drainPositions_POS cfg nonVariants st₁
    (sortInts ((pileupKeys st₁.pileup).filter (fun x => decide (x < q))))
  have hkeys2 : ∀ k ∈ pileupKeys (drainPositions cfg nonVariants st₁
      (sortInts ((pileupKeys st₁.pileup).filter (fun x => decide (x < q))))).pileup,
      k ∈ pileupKeys st₁.pileup ∧ q ≤ k := by
    intro k hk
    rw [hpile] at hk
    obtain ⟨hk1, hk2⟩ := (mem_pileupKeys_filter _ _ k).mp hk
    refine ⟨hk1, ?_⟩
    by_contra hq'
    exact hk2 ((hPS_mem k).mpr ⟨hk1, by omega⟩)
  refine ⟨⟨?_, ?_, ?_, ?_⟩, by rw [hPOS, hq]⟩
  · rw [hcands, List.map_append]
    refine List.pairwise_append.mpr ⟨hpw, List.Pairwise.sublist hsub hPS_sorted, ?_⟩
    intro e he x hx
    exact hall e he x (htail_mem x hx).1
  · intro e he k hk
    obtain ⟨hk1, hk2⟩ := hkeys2 k hk
    rw [hcands, List.map_append] at he
    rcases List.mem_append.mp he with h | h
    · exact hall e h k hk1
    · have := (htail_mem e h).2
      omega
  · intro e he
    rw [hPOS, hq]
    rw [hcands, List.map_append] at he
    rcases List.mem_append.mp he with h | h
    · exact hhor e h
    · exact (htail_mem e h).2
  · rw [hpile]
    exact List.Nodup.sublist (List.Sublist.map Prod.fst (List.filter_sublist _)) hnodup1

/-- One record-loop iteration preserves the emission invariant whenever the
record's own touched keys lie at or beyond its start. -/
theorem processRecord_InvC1 (cfg : Config) (nonVariants : List (String × Int))
    (r : AlignmentRecord) (st : DriverState)
    (hinv : InvC1 st) (hb : st.POS ≤ r.POS1 - 1)
    (htouch : isAdmitted cfg r = true → ∀ k ∈ touchedFrom r, r.POS1 - 1 ≤ k) :
    InvC1 (processRecord cfg nonVariants st r) ∧
    ((processRecord cfg nonVariants st r).POS = st.POS ∨
     (processRecord cfg nonVariants st r).POS = r.POS1 - 1) := by
  unfold processRecord
  by_cases h1 : r.QNAME.head? = some '@'
  · rw [if_pos h1]
    exact ⟨hinv, Or.inl rfl⟩
  · rw [if_neg h1]
    by_cases h2 : r.RNAME ≠ cfg.ctgName
    · rw [if_pos h2]
      exact ⟨hinv, Or.inl rfl⟩
    · rw [if_neg h2]
      dsimp only
      by_cases h3 : r.MAPQ < cfg.minMQ
      · rw [if_pos h3]
        refine ⟨⟨hinv.1, hinv.2.1, ?_, hinv.2.2.2⟩, Or.inr rfl⟩
        intro e he
        have h5 := hinv.2.2.1 e he
        show e < r.POS1 - 1
        omega
      · rw [if_neg h3]
        by_cases h4 : (r.CIGAR = ['*'] ||
            is_too_many_soft_clipped_bases_for_a_read_from r.CIGAR) = true
        · rw [if_pos h4]
          refine ⟨⟨hinv.1, hinv.2.1, ?_, hinv.2.2.2⟩, Or.inr rfl⟩
          intro e he
          have h5 := hinv.2.2.1 e he
          show e < r.POS1 - 1
          omega
        · rw [if_neg h4]
          have hadm : isAdmitted cfg r = true := by
            have h2' : r.RNAME = cfg.ctgName := not_not.mp h2
            rw [Bool.not_eq_true] at h4
            simp [isAdmitted, h1, h2', h3, h4]
          have hkeys : ∀ k ∈ pileupKeys (applyCigar r.SEQ r.CIGAR (r.POS1 - 1)
              st.pileup).pileup, k ∈ pileupKeys st.pileup ∨ r.POS1 - 1 ≤ k := by
            intro k hk
            rcases (mem_pileupKeys_applyCigar r.SEQ r.CIGAR (r.POS1 - 1)
              st.pileup k).mp hk with h | h
            · exact Or.inl h
            · exact Or.inr (htouch hadm k h)
          have hnodup1 : (pileupKeys (applyCigar r.SEQ r.CIGAR (r.POS1 - 1)
              st.pileup).pileup).Nodup :=
            nodup_pileupKeys_foldCigar r.SEQ r.CIGAR _ hinv.2.2.2
          have hall : ∀ e ∈ st.cands.map Prod.fst,
              ∀ k ∈ pileupKeys (applyCigar r.SEQ r.CIGAR (r.POS1 - 1)
                st.pileup).pileup, e < k := by
            intro e he k hk
            rcases hkeys k hk with h | h
            · exact hinv.2.1 e he k h
            · have := hinv.2.2.1 e he
              omega
          have hhor : ∀ e ∈ st.cands.map Prod.fst, e < r.POS1 - 1 := by
            intro e he
            have := hinv.2.2.1 e he
            omega
          obtain ⟨ha, hb'⟩ := drainStep_InvC1 cfg nonVariants
            { st with pileup := (applyCigar r.SEQ r.CIGAR (r.POS1 - 1) st.pileup).pileup,
                      POS := r.POS1 - 1,
                      number_of_reads_processed := st.number_of_reads_processed + 1 }
            (r.POS1 - 1) rfl hinv.1 hall hhor hnodup1
          exact ⟨ha, Or.inr hb'⟩

/-- The record loop preserves the emission invariant over a coordinate-sorted
stream of reads whose touched keys never precede their starts. -/
theorem foldRecords_InvC1 (cfg : Config) (nonVariants : List (String × Int)) :
    ∀ (records : List AlignmentRecord) (st : DriverState),
      InvC1 st →
      (∀ r ∈ records, st.POS ≤ r.POS1 - 1) →
      (∀ r ∈ records, isAdmitted cfg r = true → ∀ k ∈ touchedFrom r, r.POS1 - 1 ≤ k) →
      records.Pairwise (fun a b => a.POS1 ≤ b.POS1) →
      InvC1 (records.foldl (processRecord cfg nonVariants) st) := by
  intro records
  induction records with
  | nil => intro st h _ _ _; exact h
  | cons r rs ih =>
    intro st hinv hb htouch hpw
    rw [List.foldl_cons]
    obtain ⟨hinv', hP⟩ := processRecord_InvC1 cfg nonVariants r st hinv
      (hb r (List.mem_cons_self r rs)) (htouch r (List.mem_cons_self r rs))
    refine ih _ hinv' ?_ (fun r' h' => htouch r' (List.mem_cons_of_mem _ h'))
      (List.pairwise_cons.mp hpw).2
    intro r' hr'
    rcases hP with h | h
    · rw [h]
      exact hb r' (List.mem_cons_of_mem _ hr')
    · rw [h]
      have := (List.pairwise_cons.mp hpw).1 r' hr'
      omega

/-- Claim C1 (amended): over any coordinate-sorted alignment stream in which
every record the admission filter accepts only creates pileup entries at or
after its own start — true of every CIGAR whose operations before the first
aligned match are at most soft-clips, and violated only by a leading
insertion or deletion, which touches start − 1; records the filter rejects
are unconstrained — the positions of the emitted candidates are strictly
increasing: each accepted position is written exactly once, in ascending
order. -/
theorem claim_C1_strictly_increasing (cfg : Config) (records : List AlignmentRecord)
    (hsorted : records.Pairwise (fun a b => a.POS1 ≤ b.POS1))
    (hpos1 : ∀ r ∈ records, 1 ≤ r.POS1)
    (htouch : ∀ r ∈ records, isAdmitted cfg r = true →
      ∀ k ∈ touchedFrom r, r.POS1 - 1 ≤ k) :
    (emittedPositions cfg records).Pairwise (· < ·) := by
  unfold emittedPositions runMakeCandidates runFromState
  dsimp only
  have hinv0 : InvC1 initState := by
    refine ⟨?_, ?_, ?_, ?_⟩ <;> simp [initState, pileupKeys]
  have hinv := foldRecords_InvC1 cfg
    (non_variants_map_near_variants_from (variantsMap cfg) 15 16) records initState
    hinv0 (fun r hr => by have := hpos1 r hr; simp [initState]; omega) htouch hsorted
  unfold finalDrain
  obtain ⟨tail, hcands, hsub, _⟩ := drainPositions_cands cfg
    (non_variants_map_near_variants_from (variantsMap cfg) 15 16)
    (records.foldl (processRecord cfg
      (non_variants_map_near_variants_from (variantsMap cfg) 15 16)) initState)
    (sortInts (pileupKeys (records.foldl (processRecord cfg
      (non_variants_map_near_variants_from (variantsMap cfg) 15 16))
      initState).pileup))
  rw [hcands, List.map_append]
  refine List.pairwise_append.mpr ⟨hinv.1, ?_, ?_⟩
  · exact List.Pairwise.sublist hsub (sortInts_pairwise_lt _ hinv.2.2.2)
  · intro e he x hx
    have hxk : x ∈ pileupKeys (records.foldl (processRecord cfg
        (non_variants_map_near_variants_from (variantsMap cfg) 15 16))
        initState).pileup := (sortInts_perm _).subset (hsub.subset hx)
    exact hinv.2.1 e he x hxk

set_option maxRecDepth 200000 in
/-- Claim C1 is false as stated: on a coordinate-sorted stream whose last read
has a leading insertion, position 104 is emitted twice — the drain at the
third read re-creates and re-emits a position already emitted by the second
read's drain — so emitted positions are not strictly increasing. -/
theorem claim_C1_counterexample :
    List.Pairwise (fun a b : AlignmentRecord => a.POS1 ≤ b.POS1)
      [readM5, readM1, readLeadingIns] ∧
    emittedPositions cfgPlain [readM5, readM1, readLeadingIns] =
      [100, 101, 102, 103, 104, 104, 105] ∧
    ¬ (([100, 101, 102, 103, 104, 104, 105] : List Int).Pairwise (· < ·)) := by
  refine ⟨by decide, by with_unfolding_all decide, by decide⟩

set_option maxRecDepth 200000 in
/-- Witness for claim C1 on a sorted three-read stream whose last read has a
leading insertion but is rejected by the soft-clip test: only the admitted
reads are constrained, and the conclusion still holds. -/
theorem claim_C1_witness :
    List.Pairwise (fun a b : AlignmentRecord => a.POS1 ≤ b.POS1)
      [readM5, readM1, readRejIns] ∧
    (∀ r ∈ [readM5, readM1, readRejIns], 1 ≤ r.POS1) ∧
    (∀ r ∈ [readM5, readM1, readRejIns], isAdmitted cfgPlain r = true →
      ∀ k ∈ touchedFrom r, r.POS1 - 1 ≤ k) ∧
    isAdmitted cfgPlain readRejIns = false ∧
    (104 : Int) ∈ touchedFrom readRejIns ∧ ¬ (readRejIns.POS1 - 1 ≤ 104) ∧
    (emittedPositions cfgPlain [readM5, readM1, readRejIns]).Pairwise (· < ·) := by
  refine ⟨by decide, by decide, by with_unfolding_all decide,
    by with_unfolding_all decide, by decide, by decide, ?_⟩
  exact claim_C1_strictly_increasing cfgPlain [readM5, readM1, readRejIns]
    (by decide) (by decide) (by with_unfolding_all decide)

end ExtractVariantCandidates
